import Mathlib

/-!
Verification of the Dōbutsu shōgi endgame solver (dobutsu.cpp).

This file gives a shallow embedding of the solver's core data structures and
algorithms — the position codec (`decodeBoard` / `encodeRun`), the hand sort,
the transposition table (`enterHT` / `queryHT`), the move generator and the
negamax search — and proves properties of them.

Conventions of the embedding:
* a grid cell is the byte value of the C++ `uint8` grid (`' '` = 32, `'C'` =
  67, `'c'` = 99, `'L'` = 76, `'l'` = 108, ...), kept as a `Nat`;
* the 18-cell grid (12 board squares followed by 6 hand slots) is a
  `List Nat`;
* `uint64` hash values are kept as `Nat`; the C++ computation never
  overflows 64 bits on the inputs in scope, and `~0` is `2^64 - 1`;
* fallible decoding returns an `Option` (`none` = the C++ `illegal` flag);
* the mutation of the C++ code is made explicit: `encodeRun` returns both
  the hash and the post-call board, the table operations return the new
  table.
-/

namespace Dobutsu

/-! ## Constants (`#define` block of dobutsu.cpp) -/

/-- Board height `H`. -/
def H : Nat := 4

/-- Board width `W`. -/
def W : Nat := 3

/-- Number of board squares `N = H*W`. -/
def N : Nat := H * W

/-- Number of hand slots `D`. -/
def D : Nat := 6

/-- Number of legal, non-final lion position pairs `L`. -/
def L : Nat := 39

/-- Size of the index domain: `S = L*(1ULL<<(2+D+2*(N-2)+1))`. -/
def S : Nat := L * 2 ^ (2 + D + 2 * (N - 2) + 1)

/-- The `uint64` value `~0`, returned by the encoder on failure. -/
def U64MAX : Nat := 2 ^ 64 - 1

/-! ## Piece encoding (bitmask macros) -/

/-- `ANIMAL(piece) = piece & 0x0f`: the animal tag of a cell. -/
def ANIMAL (p : Nat) : Nat := p &&& 15

/-- `SENTE(piece) = !(piece & GOTE)` with `GOTE = 0x20`. -/
def SENTE (p : Nat) : Bool := p &&& 32 == 0

/-- The animal tags: `CHICK = 'C' & 0xf` etc. -/
def CHICK : Nat := 3
/-- Hen tag, `'D' & 0xf`. -/
def HEN : Nat := 4
/-- Elephant tag, `'E' & 0xf`. -/
def ELEPHANT : Nat := 5
/-- Giraffe tag, `'G' & 0xf`. -/
def GIRAFFE : Nat := 7
/-- Lion tag, `'L' & 0xf`. -/
def LION : Nat := 12

/-- The table `animal[4] = { EMPTY, PIECE_SENTE(CHICK), PIECE_SENTE(ELEPHANT),
PIECE_SENTE(GIRAFFE) }`, i.e. the bytes `' '`, `'C'`, `'E'`, `'G'`. -/
def animalTbl : List Nat := [32, 67, 69, 71]

/-- The 39-entry table `lionPosition` of legal (sente lion, gote lion)
square pairs, flattened exactly as in the source. -/
def lionPosition : List Nat :=
  [0, 5, 0, 6, 0, 7, 0, 8, 0, 9, 0, 10, 0, 11,
   1, 6, 1, 7, 1, 8, 1, 9, 1, 10, 1, 11,
   2, 3, 2, 6, 2, 7, 2, 8, 2, 9, 2, 10, 2, 11,
   3, 5, 3, 8, 3, 9, 3, 10, 3, 11,
   4, 9, 4, 10, 4, 11,
   5, 3, 5, 6, 5, 9, 5, 10, 5, 11,
   6, 5, 6, 8, 6, 11,
   8, 3, 8, 6, 8, 9]

/-- Sente lion square of lion pair `lp`. -/
def lionA (lp : Nat) : Nat := lionPosition.getD (2 * lp) 0

/-- Gote lion square of lion pair `lp`. -/
def lionB (lp : Nat) : Nat := lionPosition.getD (2 * lp + 1) 0

/-- The 12×12 matrix `lionGrid`, built as `Board::initialize` does: start
from all `~0` (= 255 as a byte) and store `i` at
`[lionPosition[2i]][lionPosition[2i+1]]` for each `i < 39`. -/
def lionGridM : List (List Nat) :=
  (List.range 39).foldl
    (fun m i => m.set (lionA i) (((m.getD (lionA i) []).set (lionB i) i)))
    (List.replicate 12 (List.replicate 12 255))

/-- Lookup in `lionGrid`. -/
def lionGridAt (l n : Nat) : Nat := (lionGridM.getD l []).getD n 255

/-! ## The Board -/

/-- The `Board` object: 18 grid cells (12 board squares then 6 hand slots),
side-to-move flag, plus the `deeper` and `result` bookkeeping fields of the
search. The `illegal` flag of the C++ class is modelled by returning
`none` from the decoder, so boards in scope always have `illegal = false`;
we keep the field for fidelity. -/
structure Board where
  grid : List Nat
  sente : Bool
  illegal : Bool
  deeper : Nat
  result : Int
deriving DecidableEq, Repr

/-- `toggleCell`: the body of the colour-toggling loop of `Board::flip` —
`if (ANIMAL(grid[i])) FLIP(grid[i])` with `FLIP(p) = p ^= 0x20`. -/
def toggleCell (c : Nat) : Nat := if ANIMAL c ≠ 0 then c ^^^ 32 else c

/-- `Board::flip` applied unconditionally: reverse the 12 board squares and
toggle the colour of every non-empty cell (board and hand). -/
def flipGrid (g : List Nat) : List Nat :=
  ((g.take 12).reverse ++ g.drop 12).map toggleCell

/-- `Board::find(p, 0, N)`: index of the first board square holding byte
`p`, or 12 if there is none. -/
def findPiece (g : List Nat) (p : Nat) : Nat :=
  List.findIdx (fun c => c == p) (g.take 12)

/-! ## Decoding (`Board::Board(uint64)`) -/

/-- The board after the two lion placements of the decoder:
`grid[lionPosition[2*lp]] = 'L'; grid[lionPosition[2*lp+1]] = 'l'`,
all other squares empty. -/
def lionBoard (lp : Nat) : List Nat :=
  ((List.replicate 12 32).set (lionA lp) 76).set (lionB lp) 108

/-- The square-decoding loop: for each board cell in order, while `h ≠ 0`,
an empty cell consumes two bits; a nonzero descriptor places
`animal[h & 3]` and bumps that animal's count, failing (`none`) when a
count exceeds 2. Returns the new board, the shifted `h` and the counts. -/
def decSquares : List Nat → Nat → List Nat → Option (List Nat × Nat × List Nat)
  | [], h, cnt => some ([], h, cnt)
  | c :: g, h, cnt =>
    if h = 0 then some (c :: g, 0, cnt)
    else if ANIMAL c ≠ 0 then
      match decSquares g h cnt with
      | none => none
      | some (g', h', cnt') => some (c :: g', h', cnt')
    else if h % 4 = 0 then
      match decSquares g (h / 4) cnt with
      | none => none
      | some (g', h', cnt') => some (c :: g', h', cnt')
    else if 2 < cnt.getD (h % 4) 0 + 1 then none
    else
      match decSquares g (h / 4) (cnt.set (h % 4) (cnt.getD (h % 4) 0 + 1)) with
      | none => none
      | some (g', h', cnt') => some (animalTbl.getD (h % 4) 32 :: g', h', cnt')

/-- The `while (a && count[a]>=2) a--;` loop of the hand filler. -/
def dropA : Nat → List Nat → Nat
  | 0, _ => 0
  | a + 1, cnt => if 2 ≤ cnt.getD (a + 1) 0 then dropA a cnt else a + 1

/-- The hand-filling loop: six slots are filled with `animal[a]`, `a`
descending from 3 (giraffe) as counts reach 2; once `a` hits 0 the
remaining slots are filled with the empty byte. -/
def fillHand : Nat → Nat → List Nat → List Nat
  | 0, _, _ => []
  | k + 1, a, cnt =>
    let a' := dropA a cnt
    animalTbl.getD a' 32 :: fillHand k a' (cnt.set a' (cnt.getD a' 0 + 1))

/-- Whether a cell takes part in the ownership loop:
`ANIMAL(grid[i]) && ANIMAL(grid[i]) != LION`. -/
def ownElig (c : Nat) : Bool := ANIMAL c != 0 && ANIMAL c != 12

/-- The ownership-assignment loop over a segment of the grid: each
non-lion piece consumes one bit; a set bit marks the piece as Gote
(`grid[i] |= GOTE`). -/
def decOwn : List Nat → Nat → List Nat × Nat
  | [], h => ([], h)
  | c :: g, h =>
    if ownElig c then
      let r := decOwn g (h / 2)
      ((if h % 2 = 1 then c ||| 32 else c) :: r.1, r.2)
    else
      let r := decOwn g h
      (c :: r.1, r.2)

/-- The chick-promotion loop over the 12 board squares: each chick consumes
one bit; a set bit promotes it (`PROMOTE` = increment the byte). -/
def decPromo : List Nat → Nat → List Nat × Nat
  | [], h => ([], h)
  | c :: g, h =>
    if ANIMAL c = 3 then
      let r := decPromo g (h / 2)
      ((if h % 2 = 1 then c + 1 else c) :: r.1, r.2)
    else
      let r := decPromo g h
      (c :: r.1, r.2)

/-- The chick-promotion loop over the 6 hand slots: a set promotion bit on
a hand chick is illegal (`none`). -/
def decPromoHand : List Nat → Nat → Option (List Nat × Nat)
  | [], h => some ([], h)
  | c :: g, h =>
    if ANIMAL c = 3 then
      if h % 2 = 1 then none
      else
        match decPromoHand g (h / 2) with
        | none => none
        | some r => some (c :: r.1, r.2)
    else
      match decPromoHand g h with
      | none => none
      | some r => some (c :: r.1, r.2)

/-- `Board::Board(uint64 h)`: decode an index into a position, `none` when
any legality check fails. For `h ≥ S` the constructor sets `illegal`
before touching any lookup table. The final `flip()` fires exactly when
the side-to-move bit is set (odd `h`). -/
def decodeBoard (h : Nat) : Option Board :=
  if S ≤ h then none
  else
    match decSquares (lionBoard (h >>> 29)) (h / 2) [0, 0, 0, 0] with
    | none => none
    | some (g1, h2, cnt) =>
      let hand := fillHand 6 3 cnt
      let ob := decOwn g1 h2
      let oh := decOwn hand ob.2
      let pb := decPromo ob.1 oh.2
      match decPromoHand oh.1 pb.2 with
      | none => none
      | some ph =>
        some ⟨(if h % 2 == 0 then pb.1 ++ ph.1 else flipGrid (pb.1 ++ ph.1)),
              h % 2 == 0, false, 0, 0⟩

/-! ## Encoding (`Board::operator()()`) -/

/-- `Board::reorder(p, q)`:
`!ANIMAL(p) || (ANIMAL(q) && ANIMAL(p) < ANIMAL(q))`. -/
def reorder (p q : Nat) : Bool :=
  ANIMAL p == 0 || (ANIMAL q != 0 && decide (ANIMAL p < ANIMAL q))

/-- One pass of the inner hand-sort loop: thread the current value of slot
`i` (`p`) along the later slots, swapping whenever `reorder` fires.
Returns the final value of slot `i` and the updated later slots. -/
def sortPass (p : Nat) : List Nat → Nat × List Nat
  | [] => (p, [])
  | q :: l =>
    if reorder p q then
      let r := sortPass q l
      (r.1, p :: r.2)
    else
      let r := sortPass p l
      (r.1, q :: r.2)

theorem sortPass_snd_length (p : Nat) (l : List Nat) :
    ((sortPass p l).2).length = l.length := by
  induction l generalizing p with
  | nil => rfl
  | cons q l ih =>
    simp only [sortPass]
    split <;> simp [ih]

/-- Structural implementation of the outer hand-sort loop, with explicit
fuel; `sortPass` preserves the length, so fuel `l.length` always
suffices. -/
def sortHandF : Nat → List Nat → List Nat
  | _, [] => []
  | 0, l => l
  | n + 1, c :: l =>
    let r := sortPass c l
    r.1 :: sortHandF n r.2

/-- The double-loop hand sort of the encoder (slots `N..N+D-1`). -/
def sortHand (l : List Nat) : List Nat := sortHandF l.length l

theorem sortHand_nil : sortHand [] = [] := rfl

theorem sortHand_cons (c : Nat) (l : List Nat) :
    sortHand (c :: l) = (sortPass c l).1 :: sortHand (sortPass c l).2 := by
  show sortHandF (c :: l).length (c :: l) = _
  rw [List.length_cons, sortHand, sortPass_snd_length]
  rfl

/-- The promotion-bit emitting loop (`for (i = N+D; i--;)`): every
chick or hen appends one bit at the bottom of `h`, set for a hen. -/
def encPromo : List Nat → Nat → Nat
  | [], h => h
  | c :: g, h =>
    let h' := encPromo g h
    if ANIMAL c = 3 ∨ ANIMAL c = 4 then 2 * h' + (if ANIMAL c = 4 then 1 else 0)
    else h'

/-- The ownership-bit emitting loop: every non-lion piece appends its
Gote bit. -/
def encOwn : List Nat → Nat → Nat
  | [], h => h
  | c :: g, h =>
    let h' := encOwn g h
    if ownElig c then 2 * h' + (if c &&& 32 ≠ 0 then 1 else 0)
    else h'

/-- The square-descriptor emitting loop (`for (i = N; i--;)`): every
non-lion square appends two bits, `(ANIMAL-CHICK)/2+1` for a piece and
`0` for an empty square. -/
def encSq : List Nat → Nat → Nat
  | [], h => h
  | c :: g, h =>
    let h' := encSq g h
    if ANIMAL c ≠ 12 then
      4 * h' + (if ANIMAL c ≠ 0 then (ANIMAL c - 3) / 2 + 1 else 0)
    else h'

/-- The grid in the canonical (sente-at-bottom) orientation: the first
`flip()` call of the encoder, which flips exactly when it is Gote's turn. -/
def canonGrid (b : Board) : List Nat := if b.sente then b.grid else flipGrid b.grid

/-- `Board::operator()()`: the hash of a board together with the board as
it is left after the call (the encoder sorts the hand in place and then
flips back). Returns `~0` when the board is illegal or the lion pair is
not in `lionGrid`. -/
def encodeRun (b : Board) : Nat × Board :=
  if b.illegal then (U64MAX, b)
  else
    let g := canonGrid b
    let l := findPiece g 76
    let n := findPiece g 108
    if 12 ≤ l ∨ 12 ≤ n ∨ 39 < lionGridAt l n then
      (U64MAX, { b with grid := if b.sente then g else flipGrid g })
    else
      let h1 := encPromo g (lionGridAt l n)
      let g2 := g.take 12 ++ sortHand (g.drop 12)
      let h2 := encOwn g2 h1
      let h3 := encSq (g2.take 12) h2
      (2 * h3 + (if b.sente then 0 else 1),
       { b with grid := if b.sente then g2 else flipGrid g2 })

/-- The hash value of a board. -/
def encodeVal (b : Board) : Nat := (encodeRun b).1

/-! ## The transposition table (`class Hashtable`) -/

/-- The table: a size and the byte array, as a function from index to
byte. The `instance`/`map` null checks of the source correspond to the
table being present at all, which we assume. -/
structure HT where
  size : Nat
  map : Nat → Nat

/-- `Hashtable::enter(h, depth, result)`: or the mask
`((depth/2)<<3) | m` into the byte at `h` when `h` is in range (`m` being
`WIN`/`LOSS`/0 from the sign of `result`), and return the new table plus
the byte value the expression yields. -/
def enterHT (t : HT) (h : Nat) (d : Nat) (r : Int) : HT × Nat :=
  let m : Nat := if 0 < r then 2 else if r < 0 then 4 else 0
  if h < t.size then
    let x := (t.map h ||| ((d / 2) * 8 + m)) &&& 255
    ({ t with map := fun y => if y = h then x else t.map y }, x)
  else (t, m)

/-- `Hashtable::query(h, depth, &result)`: returns (hit?, result value,
new table). On a WIN/LOSS byte the result is `±1`; otherwise a stored
depth tag of at least `depth` is a draw hit with result 0; otherwise a
miss, bumping the stored tag up to `depth/2` when larger. On a miss the
`result` reference is left untouched, so its old value `res` is passed
through. -/
def queryHT (t : HT) (h : Nat) (d : Nat) (res : Int) : Bool × Int × HT :=
  if h < t.size then
    let b := t.map h
    if b &&& 6 ≠ 0 then (true, (if b &&& 2 ≠ 0 then 1 else -1), t)
    else if d ≤ (b >>> 3) * 2 then (true, 0, t)
    else
      (false, res,
        if (b >>> 3) < d / 2 then
          { t with map := fun y => if y = h then ((b &&& 7) ||| ((d / 2) * 8)) &&& 255 else t.map y }
        else t)
  else (false, res, t)

/-! ## Move generation and application -/

/-- `PieceIterator`: slot `i` holds a piece the side to move can use —
non-empty, sente-marked, and (for hand slots after the first) not a
duplicate of the previous slot's animal. -/
def pieceOK (g : List Nat) (i : Nat) : Bool :=
  ANIMAL (g.getD i 0) != 0 && SENTE (g.getD i 0) &&
    !(decide (12 < i) && (ANIMAL (g.getD i 0) == ANIMAL (g.getD (i - 1) 0)))

/-- The skip conditions of `MoveIterator::operator++` for a board piece at
square `n` and offset `i` (destination `n - 4 + i`), negated: the move is
allowed when none of the rejection clauses fires. -/
def moveAllowed (g : List Nat) (n i : Nat) : Bool :=
  let c := g.getD n 0
  let t := g.getD (n + i - 4) 0
  !(i == 4) &&
  !(n % 3 == 0 && i % 3 == 0) &&
  !(n % 3 == 2 && i % 3 == 2) &&
  !(ANIMAL t != 0 && ((c ^^^ t) &&& 32) == 0) &&
  !(ANIMAL c == 3 && i != 7) &&
  !(ANIMAL c == 4 && (i == 0 || i == 2)) &&
  !(ANIMAL c == 5 && i % 2 == 1) &&
  !(ANIMAL c == 7 && i % 2 == 0)

/-- The `(from, to)` moves of the piece at slot `n`: king-neighbourhood
steps for a board piece (the iterator's start value excludes offsets that
would underflow, and destinations at or beyond square 12 end the
iteration), drops to every empty square for a hand piece. -/
def movesFor (g : List Nat) (n : Nat) : List (Nat × Nat) :=
  if n < 12 then
    (List.range 9).filterMap fun i =>
      if 4 ≤ n + i ∧ n + i - 4 < 12 ∧ moveAllowed g n i then some (n, n + i - 4)
      else none
  else
    (List.range 12).filterMap fun j =>
      if ANIMAL (g.getD j 0) = 0 then some (n, j) else none

/-- All moves of a position, pieces in slot order. -/
def childMoves (g : List Nat) : List (Nat × Nat) :=
  ((List.range 18).filter (pieceOK g)).flatMap (movesFor g)

/-- Whether, after the orientation flip, a (now sente-marked) lion stands
on the final rank — the loop that sets `result = __LINE__` (line 441). -/
def lionSurvives (g : List Nat) : Bool :=
  (List.range 3).any fun k =>
    SENTE (g.getD (9 + k) 0) && ANIMAL (g.getD (9 + k) 0) == 12

/-- `Board::Board(uint8* g, int s, const MoveIterator&)`: apply the move
`(mfrom, mto)` to the parent grid `g` (parent side-to-move flag `s`).
A captured piece goes colour-flipped — and otherwise unchanged — into the
first empty hand slot; capturing a lion records `result = -414`
(`-__LINE__`); a chick reaching the last rank promotes; a lion reaching
the last rank adds `deeper = 2`; then the grid is flipped for the next
mover and a lion surviving on the final rank records `result = 441`. -/
def moveApply (g : List Nat) (s : Bool) (mfrom mto : Nat) : Board :=
  let cap := g.getD mto 0
  let g1 := if ANIMAL cap ≠ 0 then
              g.set (12 + (g.drop 12).findIdx (fun c => c == 32)) (cap ^^^ 32)
            else g
  let g2 := (g1.set mto (g1.getD mfrom 0)).set mfrom 32
  let g3 := if 9 ≤ mto ∧ ANIMAL (g2.getD mto 0) = 3 then
              g2.set mto (g2.getD mto 0 + 1)
            else g2
  let deeper := if 9 ≤ mto ∧ ANIMAL (g3.getD mto 0) = 12 then 2 else 0
  let g4 := flipGrid g3
  let res : Int :=
    if lionSurvives g4 then 441
    else if ANIMAL cap = 12 then -414
    else 0
  ⟨g4, !s, false, deeper, res⟩

/-! ## The search (`Board::search`) -/

/-- The child loop of `Board::search`: fold over the move list with the
recursive search passed in as `f`, stopping once the best value is
positive (the `result <= 0` loop guard), taking the maximum of the
negated child values. -/
def searchLoop (f : HT → Board → Nat → Option (Int × HT)) (g : List Nat)
    (s : Bool) (dep : Nat) : List (Nat × Nat) → Int → HT → Option (Int × HT)
  | [], cur, t => some (cur, t)
  | m :: ms, cur, t =>
    if 0 < cur then some (cur, t)
    else
      match f t (moveApply g s m.1 m.2) dep with
      | none => none
      | some (v, t') => searchLoop f g s dep ms (max cur (-v)) t'

/-- `Board::search(depth)` with explicit fuel (`none` = fuel ran out) and
explicit table state. A nonzero `result` field is returned as is; then
the table is queried at the board's hash with `depth + deeper`; at the
horizon the 0 result is returned; otherwise the children are searched
(note that computing the hash first sorts the hand in place, so the
children are generated from the post-encode grid) and the best negamax
value — seeded with `-646` (`-__LINE__`) — is entered into the table and
returned. -/
def searchGo : Nat → HT → Board → Nat → Option (Int × HT)
  | 0, _, _, _ => none
  | fuel + 1, t, b, depth =>
    let er := encodeRun b
    if b.result ≠ 0 then some (b.result, t)
    else
      let q := queryHT t er.1 (depth + b.deeper) b.result
      if q.1 then some (q.2.1, q.2.2)
      else if depth + b.deeper = 0 then some (b.result, q.2.2)
      else
        match searchLoop (fun t' b' d' => searchGo fuel t' b' d') er.2.grid
                er.2.sente (depth + b.deeper - 1) (childMoves er.2.grid)
                (-646) q.2.2 with
        | none => none
        | some (res, t2) => some (res, (enterHT t2 er.1 (depth + b.deeper) res).1)

/-! ## Proof infrastructure -/

/-- Auxiliary grid-segment counters used throughout the proofs. -/
def nEmpty (g : List Nat) : Nat := g.countP (fun c => ANIMAL c == 0)

/-- Number of non-lion pieces of a grid segment (ownership-loop cells). -/
def nOwn (g : List Nat) : Nat := g.countP ownElig

/-- Number of chick cells of a grid segment (promotion-loop cells). -/
def nChick (g : List Nat) : Nat := g.countP (fun c => ANIMAL c == 3)

theorem ANIMAL_32 : ANIMAL 32 = 0 := by decide
theorem ANIMAL_67 : ANIMAL 67 = 3 := by decide
theorem ANIMAL_68 : ANIMAL 68 = 4 := by decide
theorem ANIMAL_69 : ANIMAL 69 = 5 := by decide
theorem ANIMAL_71 : ANIMAL 71 = 7 := by decide
theorem ANIMAL_76 : ANIMAL 76 = 12 := by decide
theorem ANIMAL_99 : ANIMAL 99 = 3 := by decide
theorem ANIMAL_100 : ANIMAL 100 = 4 := by decide
theorem ANIMAL_101 : ANIMAL 101 = 5 := by decide
theorem ANIMAL_103 : ANIMAL 103 = 7 := by decide
theorem ANIMAL_108 : ANIMAL 108 = 12 := by decide

theorem getD_set_self (l : List Nat) (i v : Nat) (h : i < l.length) :
    (l.set i v).getD i 0 = v := by
  simp [List.getD_eq_getElem?_getD, List.getElem?_set_self, h]

theorem getD_set_ne (l : List Nat) {i j : Nat} (v : Nat) (h : i ≠ j) :
    (l.set i v).getD j 0 = l.getD j 0 := by
  simp [List.getD_eq_getElem?_getD, List.getElem?_set_ne h]

theorem list_len4 (l : List Nat) (hl : l.length = 4) :
    l = [l.getD 0 0, l.getD 1 0, l.getD 2 0, l.getD 3 0] := by
  cases l with
  | nil => simp at hl
  | cons a l =>
    cases l with
    | nil => simp at hl
    | cons b l =>
      cases l with
      | nil => simp at hl
      | cons c l =>
        cases l with
        | nil => simp at hl
        | cons d l =>
          cases l with
          | nil => rfl
          | cons e l => simp at hl

theorem forall₂_mem_right {R : Nat → Nat → Prop} :
    ∀ {g g' : List Nat}, List.Forall₂ R g g' → ∀ c' ∈ g', ∃ c ∈ g, R c c' := by
  intro g g' hf
  induction hf with
  | nil => intro c' hc'; simp at hc'
  | cons hR _ ih =>
    intro c' hc'
    rcases List.mem_cons.1 hc' with h | h
    · exact ⟨_, List.mem_cons_self _ _, h ▸ hR⟩
    · obtain ⟨c, hc, hRc⟩ := ih c' h
      exact ⟨c, List.mem_cons_of_mem _ hc, hRc⟩

theorem animalTbl_inj {a b : Nat} (ha : a ∈ ([1, 2, 3] : List Nat))
    (hb : b ∈ ([1, 2, 3] : List Nat)) (hne : a ≠ b) :
    animalTbl.getD a 32 ≠ animalTbl.getD b 32 := by
  fin_cases ha <;> fin_cases hb <;> simp_all [animalTbl]

/-- On a grid of lions and empties the square-descriptor loop emits only
zero bits. -/
theorem encSq_skip (g : List Nat) (hg : ∀ c ∈ g, c = 32 ∨ c = 76 ∨ c = 108)
    (t : Nat) : encSq g t = t * 4 ^ nEmpty g := by
  induction g with
  | nil => simp [encSq, nEmpty]
  | cons c g ih =>
    have ih' := ih (fun x hx => hg x (List.mem_cons_of_mem _ hx))
    rcases hg c (List.mem_cons_self _ _) with rfl | rfl | rfl <;>
      simp [encSq, nEmpty, List.countP_cons, ih', ANIMAL_32, ANIMAL_76,
        ANIMAL_108, pow_succ] <;> ring

/-- Single-cell unfoldings of the square-descriptor emitter. -/
theorem encSq_cons_empty (l : List Nat) (t : Nat) :
    encSq (32 :: l) t = 4 * encSq l t := by simp [encSq, ANIMAL_32]

theorem encSq_cons_slion (l : List Nat) (t : Nat) :
    encSq (76 :: l) t = encSq l t := by simp [encSq, ANIMAL_76]

theorem encSq_cons_glion (l : List Nat) (t : Nat) :
    encSq (108 :: l) t = encSq l t := by simp [encSq, ANIMAL_108]

/-- The main induction for the square-decoding loop: on a lions-and-empties
board, a successful run consumes two bits per empty cell, the emitted
descriptors read the bits back, the cells are transformed pointwise, and
the animal counts track the placed pieces. -/
theorem decSquares_spec :
    ∀ (g : List Nat) (h : Nat) (cnt : List Nat) (g' : List Nat) (h' : Nat)
      (cnt' : List Nat),
    (∀ c ∈ g, c = 32 ∨ c = 76 ∨ c = 108) →
    cnt.length = 4 →
    decSquares g h cnt = some (g', h', cnt') →
    h' = h / 4 ^ nEmpty g ∧
    (∀ t, encSq g' t = t * 4 ^ nEmpty g + h % 4 ^ nEmpty g) ∧
    List.Forall₂ (fun c c' => (c ≠ 32 → c' = c) ∧
      (c = 32 → c' ∈ ([32, 67, 69, 71] : List Nat))) g g' ∧
    cnt'.length = 4 ∧
    cnt'.getD 0 0 = cnt.getD 0 0 ∧
    (∀ d ∈ ([1, 2, 3] : List Nat),
      cnt'.getD d 0 = cnt.getD d 0 + g'.count (animalTbl.getD d 32)) ∧
    (∀ d ∈ ([1, 2, 3] : List Nat), cnt.getD d 0 ≤ 2 → cnt'.getD d 0 ≤ 2) := by
  intro g
  induction g with
  | nil =>
    intro h cnt g' h' cnt' _ hlen heq
    simp only [decSquares, Option.some.injEq] at heq
    obtain ⟨rfl, rfl, rfl⟩ := heq
    simp [nEmpty, encSq, hlen, Nat.mod_one]
  | cons c g ih =>
    intro h cnt g' h' cnt' hg hlen heq
    have hgc := hg c (List.mem_cons_self _ _)
    have hgg : ∀ x ∈ g, x = 32 ∨ x = 76 ∨ x = 108 :=
      fun x hx => hg x (List.mem_cons_of_mem _ hx)
    by_cases h0 : h = 0
    · subst h0
      simp only [decSquares, if_pos rfl, Option.some.injEq] at heq
      obtain ⟨rfl, rfl, rfl⟩ := heq
      refine ⟨by simp, ?_, ?_, hlen, rfl, ?_, ?_⟩
      · intro t
        simpa using encSq_skip _ hg t
      · exact (List.forall₂_same).2 (fun x hx => by
          rcases hg x hx with rfl | rfl | rfl <;> simp)
      · intro d hd
        have hz : (c :: g).count (animalTbl.getD d 32) = 0 := by
          refine List.count_eq_zero.2 (fun hmem => ?_)
          rcases hg _ hmem with h1 | h1 | h1 <;>
            fin_cases hd <;> simp [animalTbl] at h1
        rw [hz]
        omega
      · intro d _ hle; exact hle
    · rcases hgc with rfl | rfl | rfl
      · -- empty cell: consumes two bits
        by_cases hm : h % 4 = 0
        · rw [decSquares, if_neg h0, if_neg (by simp [ANIMAL_32]), if_pos hm] at heq
          cases hrec : decSquares g (h / 4) cnt with
          | none => rw [hrec] at heq; exact absurd heq (by simp)
          | some r =>
            obtain ⟨gr, hr, cr⟩ := r
            rw [hrec] at heq
            simp only [Option.some.injEq] at heq
            obtain ⟨rfl, rfl, rfl⟩ := heq
            obtain ⟨e1, e2, e3, e4, e5, e6, e7⟩ := ih (h / 4) cnt _ _ _ hgg hlen hrec
            have hne : nEmpty (32 :: g) = nEmpty g + 1 := by
              simp [nEmpty, List.countP_cons, ANIMAL_32]
            refine ⟨?_, ?_, ?_, e4, e5, ?_, e7⟩
            · rw [e1, hne, pow_succ, Nat.div_div_eq_div_mul, Nat.mul_comm]
            · intro t
              rw [encSq_cons_empty, e2 t, hne]
              have hmm : h % 4 ^ (nEmpty g + 1) = h % 4 + 4 * (h / 4 % 4 ^ nEmpty g) := by
                rw [pow_succ, Nat.mul_comm (4 ^ nEmpty g) 4, Nat.mod_mul]
              rw [hmm, hm, pow_succ]
              ring
            · exact List.Forall₂.cons (by simp) e3
            · intro d hd
              have hcnt : ∀ l : List Nat, (32 :: l).count (animalTbl.getD d 32) =
                  l.count (animalTbl.getD d 32) := by
                intro l; fin_cases hd <;> simp [animalTbl]
              rw [hcnt]; exact e6 _ hd
        · -- place a piece
          rw [decSquares, if_neg h0, if_neg (by simp [ANIMAL_32]), if_neg hm] at heq
          by_cases hcap : 2 < cnt.getD (h % 4) 0 + 1
          · rw [if_pos hcap] at heq; exact absurd heq (by simp)
          rw [if_neg hcap] at heq
          cases hrec : decSquares g (h / 4) (cnt.set (h % 4) (cnt.getD (h % 4) 0 + 1)) with
          | none => rw [hrec] at heq; exact absurd heq (by simp)
          | some r =>
            obtain ⟨gr, hr, cr⟩ := r
            rw [hrec] at heq
            simp only [Option.some.injEq] at heq
            obtain ⟨rfl, rfl, rfl⟩ := heq
            have hlen' : (cnt.set (h % 4) (cnt.getD (h % 4) 0 + 1)).length = 4 := by
              simp [hlen]
            obtain ⟨e1, e2, e3, e4, e5, e6, e7⟩ :=
              ih (h / 4) _ _ _ _ hgg hlen' hrec
            have hne : nEmpty (32 :: g) = nEmpty g + 1 := by
              simp [nEmpty, List.countP_cons, ANIMAL_32]
            have hd4 : h % 4 < 4 := Nat.mod_lt _ (by norm_num)
            have hdisj : h % 4 = 1 ∨ h % 4 = 2 ∨ h % 4 = 3 := by omega
            have hdmem : (h % 4) ∈ ([1, 2, 3] : List Nat) := by
              rcases hdisj with h1 | h1 | h1 <;> rw [h1] <;> simp
            have hmlt : h % 4 < cnt.length := by rw [hlen]; omega
            have hval : ∀ (l : List Nat) t, encSq (animalTbl.getD (h % 4) 32 :: l) t =
                4 * encSq l t + h % 4 := by
              intro l t
              rcases hdisj with h1 | h1 | h1 <;> rw [h1] <;>
                simp [encSq, animalTbl, ANIMAL_67, ANIMAL_69, ANIMAL_71]
            refine ⟨?_, ?_, ?_, e4, ?_, ?_, ?_⟩
            · rw [e1, hne, pow_succ, Nat.div_div_eq_div_mul, Nat.mul_comm]
            · intro t
              rw [hval, e2 t, hne]
              have hmm : h % 4 ^ (nEmpty g + 1) = h % 4 + 4 * (h / 4 % 4 ^ nEmpty g) := by
                rw [pow_succ, Nat.mul_comm (4 ^ nEmpty g) 4, Nat.mod_mul]
              rw [hmm, pow_succ]
              ring
            · refine List.Forall₂.cons ?_ e3
              rcases hdisj with h1 | h1 | h1 <;> rw [h1] <;> simp [animalTbl]
            · rw [e5, getD_set_ne _ _ (by omega : h % 4 ≠ 0)]
            · intro d hd
              rcases eq_or_ne d (h % 4) with heqd | hdd
              · subst heqd
                rw [e6 _ hd, getD_set_self _ _ _ hmlt, List.count_cons_self]
                ring
              · rw [e6 _ hd, getD_set_ne _ _ (Ne.symm hdd),
                  List.count_cons_of_ne (animalTbl_inj hd hdmem hdd)]
            · intro d hd hle
              rcases eq_or_ne d (h % 4) with heqd | hdd
              · subst heqd
                refine e7 _ hd ?_
                rw [getD_set_self _ _ _ hmlt]
                omega
              · refine e7 _ hd ?_
                rw [getD_set_ne _ _ (Ne.symm hdd)]
                exact hle
      · -- sente lion: skipped
        rw [decSquares, if_neg h0, if_pos (by simp [ANIMAL_76])] at heq
        cases hrec : decSquares g h cnt with
        | none => rw [hrec] at heq; exact absurd heq (by simp)
        | some r =>
          obtain ⟨gr, hr, cr⟩ := r
          rw [hrec] at heq
          simp only [Option.some.injEq] at heq
          obtain ⟨rfl, rfl, rfl⟩ := heq
          obtain ⟨e1, e2, e3, e4, e5, e6, e7⟩ := ih h cnt _ _ _ hgg hlen hrec
          have hne : nEmpty (76 :: g) = nEmpty g := by
            simp [nEmpty, List.countP_cons, ANIMAL_76]
          refine ⟨by rw [e1, hne], ?_, List.Forall₂.cons (by simp) e3, e4, e5, ?_, e7⟩
          · intro t
            rw [encSq_cons_slion, e2 t, hne]
          · intro d hd
            have hcnt : ∀ l : List Nat, (76 :: l).count (animalTbl.getD d 32) =
                l.count (animalTbl.getD d 32) := by
              intro l; fin_cases hd <;> simp [animalTbl]
            rw [hcnt]; exact e6 _ hd
      · -- gote lion: skipped
        rw [decSquares, if_neg h0, if_pos (by simp [ANIMAL_108])] at heq
        cases hrec : decSquares g h cnt with
        | none => rw [hrec] at heq; exact absurd heq (by simp)
        | some r =>
          obtain ⟨gr, hr, cr⟩ := r
          rw [hrec] at heq
          simp only [Option.some.injEq] at heq
          obtain ⟨rfl, rfl, rfl⟩ := heq
          obtain ⟨e1, e2, e3, e4, e5, e6, e7⟩ := ih h cnt _ _ _ hgg hlen hrec
          have hne : nEmpty (108 :: g) = nEmpty g := by
            simp [nEmpty, List.countP_cons, ANIMAL_108]
          refine ⟨by rw [e1, hne], ?_, List.Forall₂.cons (by simp) e3, e4, e5, ?_, e7⟩
          · intro t
            rw [encSq_cons_glion, e2 t, hne]
          · intro d hd
            have hcnt : ∀ l : List Nat, (108 :: l).count (animalTbl.getD d 32) =
                l.count (animalTbl.getD d 32) := by
              intro l; fin_cases hd <;> simp [animalTbl]
            rw [hcnt]; exact e6 _ hd

/-! ### Ownership and promotion phases -/

theorem forall₂_imp_of_mem {R R' : Nat → Nat → Prop} :
    ∀ {g g' : List Nat}, List.Forall₂ R g g' →
    (∀ a ∈ g, ∀ b, R a b → R' a b) → List.Forall₂ R' g g' := by
  intro g g' hf
  induction hf with
  | nil => intro _; exact List.Forall₂.nil
  | cons hR htail ih =>
    intro himp
    exact List.Forall₂.cons (himp _ (List.mem_cons_self _ _) _ hR)
      (ih (fun a ha b hR' => himp a (List.mem_cons_of_mem _ ha) b hR'))

theorem forall₂_trans {R1 R2 R3 : Nat → Nat → Prop}
    (hcomp : ∀ a b c, R1 a b → R2 b c → R3 a c) :
    ∀ {l1 l2 l3 : List Nat}, List.Forall₂ R1 l1 l2 → List.Forall₂ R2 l2 l3 →
    List.Forall₂ R3 l1 l3 := by
  intro l1 l2 l3 h12
  induction h12 generalizing l3 with
  | nil =>
    intro h23; cases h23; exact List.Forall₂.nil
  | cons hR htail ih =>
    intro h23
    cases h23 with
    | cons hR2 htail2 =>
      exact List.Forall₂.cons (hcomp _ _ _ hR hR2) (ih htail2)

theorem forall₂_countP {R : Nat → Nat → Prop} (p : Nat → Bool) :
    ∀ {g g' : List Nat}, List.Forall₂ R g g' →
    (∀ a b, R a b → p a = p b) → g.countP p = g'.countP p := by
  intro g g' hf
  induction hf with
  | nil => intro _; rfl
  | cons hR _ ih =>
    intro hp
    simp only [List.countP_cons, ih hp, hp _ _ hR]

theorem encOwn_cons_skip (c : Nat) (hc : ownElig c = false) (l : List Nat)
    (t : Nat) : encOwn (c :: l) t = encOwn l t := by
  simp [encOwn, hc]

theorem encOwn_cons_sente (c : Nat)
    (hc : c ∈ ([67, 69, 71] : List Nat)) (l : List Nat) (t : Nat) :
    encOwn (c :: l) t = 2 * encOwn l t := by
  fin_cases hc <;> simp [encOwn, ownElig, ANIMAL_67, ANIMAL_69, ANIMAL_71] <;> decide

theorem encOwn_cons_gote (c : Nat)
    (hc : c ∈ ([99, 101, 103] : List Nat)) (l : List Nat) (t : Nat) :
    encOwn (c :: l) t = 2 * encOwn l t + 1 := by
  fin_cases hc <;> simp [encOwn, ownElig, ANIMAL_99, ANIMAL_101, ANIMAL_103]

/-- The main induction for the ownership loop: one bit is consumed per
non-lion piece, the Gote bits read the input back, and each cell is left
alone or marked Gote. -/
theorem decOwn_spec :
    ∀ (g : List Nat) (h : Nat),
    (∀ c ∈ g, c ∈ ([32, 67, 69, 71, 76, 108] : List Nat)) →
    (decOwn g h).2 = h / 2 ^ nOwn g ∧
    (∀ t, encOwn (decOwn g h).1 t = t * 2 ^ nOwn g + h % 2 ^ nOwn g) ∧
    List.Forall₂ (fun c c' => c' = c ∨ (ownElig c = true ∧ c' = c ||| 32))
      g (decOwn g h).1 := by
  intro g
  induction g with
  | nil =>
    intro h _
    refine ⟨by simp [decOwn, nOwn], ?_, by simp [decOwn]⟩
    intro t
    simp [decOwn, encOwn, nOwn, Nat.mod_one]
  | cons c g ih =>
    intro h hg
    have hgc := hg c (List.mem_cons_self _ _)
    have hgg : ∀ x ∈ g, x ∈ ([32, 67, 69, 71, 76, 108] : List Nat) :=
      fun x hx => hg x (List.mem_cons_of_mem _ hx)
    by_cases hoe : ownElig c = true
    · -- a non-lion piece: consumes one bit
      have hmem3 : c ∈ ([67, 69, 71] : List Nat) := by
        fin_cases hgc <;> simp_all [ownElig, ANIMAL_32, ANIMAL_67, ANIMAL_69,
          ANIMAL_71, ANIMAL_76, ANIMAL_108]
      obtain ⟨e1, e2, e3⟩ := ih (h / 2) hgg
      have hto : decOwn (c :: g) h =
          ((if h % 2 = 1 then c ||| 32 else c) :: (decOwn g (h / 2)).1,
           (decOwn g (h / 2)).2) := by
        simp [decOwn, hoe]
      have hnn : nOwn (c :: g) = nOwn g + 1 := by
        simp [nOwn, List.countP_cons, hoe]
      have hgmem : (c ||| 32) ∈ ([99, 101, 103] : List Nat) := by
        fin_cases hmem3 <;> decide
      refine ⟨?_, ?_, ?_⟩
      · rw [hto]
        simpa [hnn, pow_succ, Nat.div_div_eq_div_mul, Nat.mul_comm] using e1
      · intro t
        rw [hto]
        have hmm : h % 2 ^ (nOwn g + 1) = h % 2 + 2 * (h / 2 % 2 ^ nOwn g) := by
          rw [pow_succ, Nat.mul_comm (2 ^ nOwn g) 2, Nat.mod_mul]
        by_cases hb : h % 2 = 1
        · rw [if_pos hb]
          rw [encOwn_cons_gote _ hgmem, e2 t, hnn, hmm, hb, pow_succ]
          ring
        · have hb0 : h % 2 = 0 := by omega
          rw [if_neg hb]
          rw [encOwn_cons_sente _ hmem3, e2 t, hnn, hmm, hb0, pow_succ]
          ring
      · rw [hto]
        refine List.Forall₂.cons ?_ e3
        by_cases hb : h % 2 = 1
        · rw [if_pos hb]; right; exact ⟨hoe, rfl⟩
        · rw [if_neg hb]; left; rfl
    · -- empty or lion: skipped
      have hoe' : ownElig c = false := by
        cases hval : ownElig c
        · rfl
        · exact absurd hval hoe
      obtain ⟨e1, e2, e3⟩ := ih h hgg
      have hto : decOwn (c :: g) h = (c :: (decOwn g h).1, (decOwn g h).2) := by
        simp [decOwn, hoe']
      have hnn : nOwn (c :: g) = nOwn g := by
        simp [nOwn, List.countP_cons, hoe']
      refine ⟨?_, ?_, ?_⟩
      · rw [hto]; simpa [hnn] using e1
      · intro t
        rw [hto, encOwn_cons_skip _ hoe', e2 t, hnn]
      · rw [hto]
        exact List.Forall₂.cons (Or.inl rfl) e3

theorem encPromo_cons_skip (c : Nat) (h3 : ANIMAL c ≠ 3) (h4 : ANIMAL c ≠ 4)
    (l : List Nat) (t : Nat) : encPromo (c :: l) t = encPromo l t := by
  simp [encPromo, h3, h4]

theorem encPromo_cons_chick (c : Nat) (h3 : ANIMAL c = 3) (l : List Nat)
    (t : Nat) : encPromo (c :: l) t = 2 * encPromo l t := by
  simp [encPromo, h3]

theorem encPromo_cons_hen (c : Nat) (h4 : ANIMAL c = 4) (l : List Nat)
    (t : Nat) : encPromo (c :: l) t = 2 * encPromo l t + 1 := by
  simp [encPromo, h4]

/-- On a hen-free segment the promotion emitter appends only zero bits. -/
theorem encPromo_no_hen (g : List Nat) (hg : ∀ c ∈ g, ANIMAL c ≠ 4) (t : Nat) :
    encPromo g t = t * 2 ^ nChick g := by
  induction g with
  | nil => simp [encPromo, nChick]
  | cons c g ih =>
    have hgg : ∀ x ∈ g, ANIMAL x ≠ 4 := fun x hx => hg x (List.mem_cons_of_mem _ hx)
    have hc4 := hg c (List.mem_cons_self _ _)
    by_cases hc3 : ANIMAL c = 3
    · rw [encPromo_cons_chick _ hc3, ih hgg]
      have : nChick (c :: g) = nChick g + 1 := by
        simp [nChick, List.countP_cons, hc3]
      rw [this, pow_succ]; ring
    · rw [encPromo_cons_skip _ hc3 hc4, ih hgg]
      have : nChick (c :: g) = nChick g := by
        simp [nChick, List.countP_cons, hc3]
      rw [this]

/-- The main induction for the board promotion loop: one bit per chick,
the hen bits of the output read the input back (the input must be
hen-free), and each cell is left alone or promoted. -/
theorem decPromo_spec :
    ∀ (g : List Nat) (h : Nat),
    (∀ c ∈ g, ANIMAL c ≠ 4) →
    (∀ c ∈ g, ANIMAL c = 3 → ANIMAL (c + 1) = 4) →
    (decPromo g h).2 = h / 2 ^ nChick g ∧
    (∀ t, encPromo (decPromo g h).1 t = t * 2 ^ nChick g + h % 2 ^ nChick g) ∧
    List.Forall₂ (fun c c' => c' = c ∨ (ANIMAL c = 3 ∧ c' = c + 1))
      g (decPromo g h).1 := by
  intro g
  induction g with
  | nil =>
    intro h _ _
    refine ⟨by simp [decPromo, nChick], ?_, by simp [decPromo]⟩
    intro t
    simp [decPromo, encPromo, nChick, Nat.mod_one]
  | cons c g ih =>
    intro h hg4 hgp
    have hc4 := hg4 c (List.mem_cons_self _ _)
    have hgg4 : ∀ x ∈ g, ANIMAL x ≠ 4 := fun x hx => hg4 x (List.mem_cons_of_mem _ hx)
    have hggp : ∀ x ∈ g, ANIMAL x = 3 → ANIMAL (x + 1) = 4 :=
      fun x hx => hgp x (List.mem_cons_of_mem _ hx)
    by_cases hc3 : ANIMAL c = 3
    · obtain ⟨e1, e2, e3⟩ := ih (h / 2) hgg4 hggp
      have hto : decPromo (c :: g) h =
          ((if h % 2 = 1 then c + 1 else c) :: (decPromo g (h / 2)).1,
           (decPromo g (h / 2)).2) := by
        simp [decPromo, hc3]
      have hnn : nChick (c :: g) = nChick g + 1 := by
        simp [nChick, List.countP_cons, hc3]
      refine ⟨?_, ?_, ?_⟩
      · rw [hto]
        simpa [hnn, pow_succ, Nat.div_div_eq_div_mul, Nat.mul_comm] using e1
      · intro t
        rw [hto]
        have hmm : h % 2 ^ (nChick g + 1) = h % 2 + 2 * (h / 2 % 2 ^ nChick g) := by
          rw [pow_succ, Nat.mul_comm (2 ^ nChick g) 2, Nat.mod_mul]
        by_cases hb : h % 2 = 1
        · rw [if_pos hb,
            encPromo_cons_hen _ (hgp c (List.mem_cons_self _ _) hc3), e2 t,
            hnn, hmm, hb, pow_succ]
          ring
        · have hb0 : h % 2 = 0 := by omega
          rw [if_neg hb, encPromo_cons_chick _ hc3, e2 t, hnn, hmm, hb0, pow_succ]
          ring
      · rw [hto]
        refine List.Forall₂.cons ?_ e3
        by_cases hb : h % 2 = 1
        · rw [if_pos hb]; right; exact ⟨hc3, rfl⟩
        · rw [if_neg hb]; left; rfl
    · obtain ⟨e1, e2, e3⟩ := ih h hgg4 hggp
      have hto : decPromo (c :: g) h = (c :: (decPromo g h).1, (decPromo g h).2) := by
        simp [decPromo, hc3]
      have hnn : nChick (c :: g) = nChick g := by
        simp [nChick, List.countP_cons, hc3]
      refine ⟨?_, ?_, ?_⟩
      · rw [hto]; simpa [hnn] using e1
      · intro t
        rw [hto, encPromo_cons_skip _ hc3 hc4, e2 t, hnn]
      · rw [hto]
        exact List.Forall₂.cons (Or.inl rfl) e3

/-- The hand promotion loop succeeds exactly when all the consumed bits are
zero; it then leaves the hand unchanged and shifts one bit per chick. -/
theorem decPromoHand_spec :
    ∀ (g : List Nat) (h : Nat) (g' : List Nat) (h' : Nat),
    decPromoHand g h = some (g', h') →
    g' = g ∧ h' = h / 2 ^ nChick g ∧ h % 2 ^ nChick g = 0 := by
  intro g
  induction g with
  | nil =>
    intro h g' h' heq
    simp only [decPromoHand, Option.some.injEq] at heq
    obtain ⟨rfl, rfl⟩ := heq
    simp [nChick, Nat.mod_one]
  | cons c g ih =>
    intro h g' h' heq
    by_cases hc3 : ANIMAL c = 3
    · rw [decPromoHand, if_pos hc3] at heq
      by_cases hb : h % 2 = 1
      · rw [if_pos hb] at heq; exact absurd heq (by simp)
      · rw [if_neg hb] at heq
        cases hrec : decPromoHand g (h / 2) with
        | none => rw [hrec] at heq; exact absurd heq (by simp)
        | some r =>
          rw [hrec] at heq
          simp only [Option.some.injEq] at heq
          obtain ⟨rfl, rfl⟩ := heq
          obtain ⟨e1, e2, e3⟩ := ih (h / 2) r.1 r.2 (by rw [hrec])
          have hnn : nChick (c :: g) = nChick g + 1 := by
            simp [nChick, List.countP_cons, hc3]
          have hb0 : h % 2 = 0 := by omega
          refine ⟨by rw [e1], ?_, ?_⟩
          · rw [e2, hnn, pow_succ, Nat.div_div_eq_div_mul, Nat.mul_comm]
          · rw [hnn]
            have hmm : h % 2 ^ (nChick g + 1) = h % 2 + 2 * (h / 2 % 2 ^ nChick g) := by
              rw [pow_succ, Nat.mul_comm (2 ^ nChick g) 2, Nat.mod_mul]
            rw [hmm, hb0, e3]
    · rw [decPromoHand, if_neg hc3] at heq
      cases hrec : decPromoHand g h with
      | none => rw [hrec] at heq; exact absurd heq (by simp)
      | some r =>
        rw [hrec] at heq
        simp only [Option.some.injEq] at heq
        obtain ⟨rfl, rfl⟩ := heq
        obtain ⟨e1, e2, e3⟩ := ih h r.1 r.2 (by rw [hrec])
        have hnn : nChick (c :: g) = nChick g := by
          simp [nChick, List.countP_cons, hc3]
        exact ⟨by rw [e1], by rw [e2, hnn], by rw [hnn]; exact e3⟩

/-! ### Append and congruence lemmas for the emitters -/

theorem encPromo_append (a b : List Nat) (t : Nat) :
    encPromo (a ++ b) t = encPromo a (encPromo b t) := by
  induction a with
  | nil => rfl
  | cons c a ih => simp [encPromo, ih]

theorem encOwn_append (a b : List Nat) (t : Nat) :
    encOwn (a ++ b) t = encOwn a (encOwn b t) := by
  induction a with
  | nil => rfl
  | cons c a ih => simp [encOwn, ih]

theorem decOwn_append (a b : List Nat) (h : Nat) :
    decOwn (a ++ b) h =
      ((decOwn a h).1 ++ (decOwn b (decOwn a h).2).1,
       (decOwn b (decOwn a h).2).2) := by
  induction a generalizing h with
  | nil => simp [decOwn]
  | cons c a ih =>
    by_cases hoe : ownElig c = true
    · simp [decOwn, hoe, ih]
    · have hoe' : ownElig c = false := by
        cases hval : ownElig c
        · rfl
        · exact absurd hval hoe
      simp [decOwn, hoe', ih]

/-- The relation under which the square emitter is invariant: unchanged
lion-ness, emptiness and descriptor value. -/
def sqRel (c c' : Nat) : Prop :=
  (ANIMAL c' = 12 ↔ ANIMAL c = 12) ∧ (ANIMAL c' = 0 ↔ ANIMAL c = 0) ∧
    (ANIMAL c' - 3) / 2 = (ANIMAL c - 3) / 2

/-- The square emitter depends only on lion-ness, emptiness and the
descriptor value of each cell. -/
theorem encSq_congr :
    ∀ {g g' : List Nat}, List.Forall₂ sqRel g g' →
    ∀ t, encSq g' t = encSq g t := by
  intro g g' hf
  induction hf with
  | nil => intro t; rfl
  | @cons a b l₁ l₂ hR htail ih =>
    intro t
    obtain ⟨h12, h0, hv⟩ := hR
    simp only [encSq]
    rw [ih]
    by_cases hl : ANIMAL a = 12
    · rw [if_neg (by simp [h12.2 hl]), if_neg (by simp [hl])]
    · rw [if_pos (fun hc => hl (h12.1 hc)), if_pos hl]
      congr 1
      by_cases hz : ANIMAL a = 0
      · rw [if_neg (by simp [h0.2 hz]), if_neg (by simp [hz])]
      · rw [if_pos (fun hc => hz (h0.1 hc)), if_pos hz, hv]

/-! ### The hand sort -/

theorem reorder_congr {a a' b b' : Nat} (ha : ANIMAL a' = ANIMAL a)
    (hb : ANIMAL b' = ANIMAL b) : reorder a' b' = reorder a b := by
  simp [reorder, ha, hb]

theorem ownElig_32 : ownElig 32 = false := by decide
theorem ownElig_67 : ownElig 67 = true := by decide
theorem ownElig_68 : ownElig 68 = true := by decide
theorem ownElig_69 : ownElig 69 = true := by decide
theorem ownElig_71 : ownElig 71 = true := by decide
theorem ownElig_76 : ownElig 76 = false := by decide
theorem ownElig_99 : ownElig 99 = true := by decide
theorem ownElig_100 : ownElig 100 = true := by decide
theorem ownElig_101 : ownElig 101 = true := by decide
theorem ownElig_103 : ownElig 103 = true := by decide
theorem ownElig_108 : ownElig 108 = false := by decide

theorem sortPass_fst_mem (p : Nat) (l : List Nat) :
    (sortPass p l).1 = p ∨ (sortPass p l).1 ∈ l := by
  induction l generalizing p with
  | nil => left; rfl
  | cons q l ih =>
    simp only [sortPass]
    by_cases hr : reorder p q = true
    · rw [if_pos hr]
      rcases ih q with h | h
      · right; simp [h]
      · right; simp [h]
    · rw [if_neg hr]
      rcases ih p with h | h
      · left; exact h
      · right; simp [h]

theorem sortPass_snd_mem (p : Nat) (l : List Nat) :
    ∀ x ∈ (sortPass p l).2, x = p ∨ x ∈ l := by
  induction l generalizing p with
  | nil => intro x hx; simp [sortPass] at hx
  | cons q l ih =>
    intro x hx
    simp only [sortPass] at hx
    by_cases hr : reorder p q = true
    · rw [if_pos hr] at hx
      rcases List.mem_cons.1 hx with rfl | hx
      · left; rfl
      · rcases ih q x hx with rfl | h
        · right; simp
        · right; simp [h]
    · rw [if_neg hr] at hx
      rcases List.mem_cons.1 hx with rfl | hx
      · right; simp
      · rcases ih p x hx with rfl | h
        · left; rfl
        · right; simp [h]

theorem sortPass_max (p : Nat) (l : List Nat) :
    ANIMAL p ≤ ANIMAL (sortPass p l).1 ∧
    ∀ x ∈ (sortPass p l).2, ANIMAL x ≤ ANIMAL (sortPass p l).1 := by
  induction l generalizing p with
  | nil => exact ⟨le_refl _, by intro x hx; simp [sortPass] at hx⟩
  | cons q l ih =>
    simp only [sortPass]
    by_cases hr : reorder p q = true
    · rw [if_pos hr]
      obtain ⟨ih1, ih2⟩ := ih q
      have hpq : ANIMAL p ≤ ANIMAL q := by
        simp only [reorder, Bool.or_eq_true, beq_iff_eq, Bool.and_eq_true,
          bne_iff_ne, decide_eq_true_eq] at hr
        rcases hr with h | ⟨_, h⟩
        · simp [h]
        · omega
      refine ⟨le_trans hpq ih1, ?_⟩
      intro x hx
      rcases List.mem_cons.1 hx with rfl | hx
      · exact le_trans hpq ih1
      · exact ih2 x hx
    · rw [if_neg hr]
      obtain ⟨ih1, ih2⟩ := ih p
      have hqp : ANIMAL q ≤ ANIMAL p := by
        simp only [reorder, Bool.or_eq_true, beq_iff_eq, Bool.and_eq_true,
          bne_iff_ne, decide_eq_true_eq] at hr
        push_neg at hr
        obtain ⟨h1, h2⟩ := hr
        by_cases hq0 : ANIMAL q = 0
        · simp [hq0]
        · have := h2 hq0
          omega
      refine ⟨ih1, ?_⟩
      intro x hx
      rcases List.mem_cons.1 hx with rfl | hx
      · exact le_trans hqp ih1
      · exact ih2 x hx

theorem sortHand_mem_aux : ∀ (n : Nat) (l : List Nat), l.length = n →
    ∀ x ∈ sortHand l, x ∈ l := by
  intro n
  induction n using Nat.strong_induction_on with
  | _ n ih =>
    intro l hn x hx
    cases l with
    | nil => simp [sortHand_nil] at hx
    | cons c l =>
      rw [sortHand_cons] at hx
      rcases List.mem_cons.1 hx with rfl | hx
      · rcases sortPass_fst_mem c l with h | h
        · simp [h]
        · simp [h]
      · have hlen : (sortPass c l).2.length < n := by
          rw [sortPass_snd_length, ← hn]
          simp
        have hy := ih _ hlen _ rfl x hx
        rcases sortPass_snd_mem c l x hy with rfl | h
        · simp
        · simp [h]

theorem sortHand_mem (l : List Nat) : ∀ x ∈ sortHand l, x ∈ l :=
  sortHand_mem_aux l.length l rfl

theorem sortHand_sorted_aux : ∀ (n : Nat) (l : List Nat), l.length = n →
    List.Pairwise (fun a b => ANIMAL b ≤ ANIMAL a) (sortHand l) := by
  intro n
  induction n using Nat.strong_induction_on with
  | _ n ih =>
    intro l hn
    cases l with
    | nil => simp [sortHand_nil]
    | cons c l =>
      rw [sortHand_cons]
      refine List.Pairwise.cons ?_ ?_
      · intro y hy
        have hmem := sortHand_mem _ y hy
        exact (sortPass_max c l).2 y hmem
      · have hlen : (sortPass c l).2.length < n := by
          rw [sortPass_snd_length, ← hn]; simp
        exact ih _ hlen _ rfl

/-- The encoder's hand sort leaves the hand in non-increasing animal-tag
order: pieces in descending tag order, empty slots (tag 0) last. -/
theorem sortHand_sorted (l : List Nat) :
    List.Pairwise (fun a b => ANIMAL b ≤ ANIMAL a) (sortHand l) :=
  sortHand_sorted_aux l.length l rfl

/-- A hand is left unchanged by the sort when every pair that would swap
is a pair of empty slots. -/
abbrev handFixed (l : List Nat) : Prop :=
  List.Pairwise (fun p q => reorder p q = true → p = 32 ∧ q = 32) l

theorem sortPass_fixed (p : Nat) (l : List Nat)
    (hp : ∀ q ∈ l, reorder p q = true → p = 32 ∧ q = 32) :
    sortPass p l = (p, l) := by
  induction l generalizing p with
  | nil => rfl
  | cons q l ih =>
    simp only [sortPass]
    by_cases hr : reorder p q = true
    · obtain ⟨hp32, hq32⟩ := hp q (List.mem_cons_self _ _) hr
      subst hp32; subst hq32
      rw [if_pos hr, ih _ (fun x hx h => hp x (List.mem_cons_of_mem _ hx) h)]
    · rw [if_neg hr, ih _ (fun x hx h => hp x (List.mem_cons_of_mem _ hx) h)]

theorem sortHand_fixed_aux : ∀ (n : Nat) (l : List Nat), l.length = n →
    handFixed l → sortHand l = l := by
  intro n
  induction n using Nat.strong_induction_on with
  | _ n ih =>
    intro l hn hfix
    cases l with
    | nil => rw [sortHand_nil]
    | cons c l =>
      rw [sortHand_cons]
      obtain ⟨hhead, htail⟩ := List.pairwise_cons.1 hfix
      rw [sortPass_fixed c l hhead]
      have hlen : l.length < n := by rw [← hn]; simp
      rw [ih _ hlen _ rfl htail]

theorem sortHand_fixed (l : List Nat) (hfix : handFixed l) : sortHand l = l :=
  sortHand_fixed_aux l.length l rfl hfix

/-! ### Facts about the fixed tables, by computation -/

theorem lion_facts : ∀ lp < 39,
    lionA lp < 12 ∧ lionB lp < 12 ∧
    (∀ c ∈ lionBoard lp, c = 32 ∨ c = 76 ∨ c = 108) ∧
    nEmpty (lionBoard lp) = 10 ∧
    (lionBoard lp).length = 12 ∧
    (lionBoard lp).findIdx (fun c => c == 76) = lionA lp ∧
    (lionBoard lp).findIdx (fun c => c == 108) = lionB lp ∧
    lionGridAt (lionA lp) (lionB lp) = lp := by decide

theorem fill_facts : ∀ c1 ∈ ([0, 1, 2] : List Nat), ∀ c2 ∈ ([0, 1, 2] : List Nat),
    ∀ c3 ∈ ([0, 1, 2] : List Nat),
    (∀ c ∈ fillHand 6 3 [0, c1, c2, c3], c ∈ ([32, 67, 69, 71] : List Nat)) ∧
    nChick (fillHand 6 3 [0, c1, c2, c3]) = 2 - c1 ∧
    nOwn (fillHand 6 3 [0, c1, c2, c3]) = 6 - (c1 + c2 + c3) ∧
    List.Pairwise (fun p q => ANIMAL q ≤ ANIMAL p) (fillHand 6 3 [0, c1, c2, c3]) ∧
    handFixed (fillHand 6 3 [0, c1, c2, c3]) := by decide

/-! ### Counting lemmas on value-constrained grids -/

theorem nOwn_V1 : ∀ (g : List Nat),
    (∀ c ∈ g, c ∈ ([32, 67, 69, 71, 76, 108] : List Nat)) →
    nOwn g = g.count 67 + g.count 69 + g.count 71 := by
  intro g
  induction g with
  | nil => intro _; rfl
  | cons c g ih =>
    intro hg
    have hc := hg c (List.mem_cons_self _ _)
    have ih' := ih (fun x hx => hg x (List.mem_cons_of_mem _ hx))
    fin_cases hc <;>
      simp only [nOwn, List.countP_cons, List.count_cons, ownElig_32,
        ownElig_67, ownElig_69, ownElig_71, ownElig_76, ownElig_108] at ih' ⊢ <;>
      simp <;> omega

theorem nChick_V1 : ∀ (g : List Nat),
    (∀ c ∈ g, c ∈ ([32, 67, 69, 71, 76, 108] : List Nat)) →
    nChick g = g.count 67 := by
  intro g
  induction g with
  | nil => intro _; rfl
  | cons c g ih =>
    intro hg
    have hc := hg c (List.mem_cons_self _ _)
    have ih' := ih (fun x hx => hg x (List.mem_cons_of_mem _ hx))
    fin_cases hc <;>
      simp only [nChick, List.countP_cons, List.count_cons, ANIMAL_32,
        ANIMAL_67, ANIMAL_69, ANIMAL_71, ANIMAL_76, ANIMAL_108] at ih' ⊢ <;>
      simp <;> omega

/-- The ownership emitter depends only on eligibility and the Gote bit. -/
theorem encOwn_congr :
    ∀ {g g' : List Nat}, List.Forall₂ (fun c c' =>
      ownElig c' = ownElig c ∧ (c' &&& 32 ≠ 0 ↔ c &&& 32 ≠ 0)) g g' →
    ∀ t, encOwn g' t = encOwn g t := by
  intro g g' hf
  induction hf with
  | nil => intro t; rfl
  | @cons a b l₁ l₂ hR htail ih =>
    intro t
    obtain ⟨he, hb⟩ := hR
    simp only [encOwn]
    rw [ih]
    by_cases hoe : ownElig a = true
    · rw [if_pos (he.trans hoe), if_pos hoe]
      congr 1
      by_cases hbit : a &&& 32 ≠ 0
      · rw [if_pos (hb.2 hbit), if_pos hbit]
      · rw [if_neg (fun hc => hbit (hb.1 hc)), if_neg hbit]
    · have hoe' : ownElig a = false := by
        cases hval : ownElig a
        · rfl
        · exact absurd hval hoe
      rw [if_neg (by simp [he, hoe']), if_neg (by simp [hoe'])]

theorem forall₂_findIdx (v : Nat) :
    ∀ {g g' : List Nat}, List.Forall₂ (fun c c' => c = v ↔ c' = v) g g' →
    g.findIdx (fun c => c == v) = g'.findIdx (fun c => c == v) := by
  intro g g' hf
  induction hf with
  | nil => rfl
  | @cons a b l₁ l₂ hR htail ih =>
    rw [List.findIdx_cons, List.findIdx_cons]
    by_cases hv : a = v
    · have ha : (a == v) = true := by simpa using hv
      have hb : (b == v) = true := by simpa using hR.1 hv
      rw [ha, hb]
      rfl
    · have hv' : ¬ b = v := fun hc => hv (hR.2 hc)
      have ha : (a == v) = false := by simpa using hv
      have hb : (b == v) = false := by simpa using hv'
      rw [ha, hb]
      simp [ih]

theorem pairwise_transport {R : Nat → Nat → Prop} {P P' : Nat → Nat → Prop} :
    ∀ {l l' : List Nat}, List.Forall₂ R l l' → List.Pairwise P l →
    (∀ a a' b b', R a a' → R b b' → P a b → P' a' b') →
    List.Pairwise P' l' := by
  intro l l' hf
  induction hf with
  | nil => intro _ _; exact List.Pairwise.nil
  | @cons a b l₁ l₂ hR htail ih =>
    intro hp himp
    obtain ⟨hhead, htl⟩ := List.pairwise_cons.1 hp
    refine List.Pairwise.cons ?_ (ih htl himp)
    intro b' hb'
    obtain ⟨x, hx, hRx⟩ := forall₂_mem_right htail b' hb'
    exact himp a b x b' hR hRx (hhead x hx)

/-! ### The round trip -/

theorem S_val : S = 39 * 2 ^ 29 := by decide

theorem mem012 (n : Nat) (hn : n ≤ 2) : n ∈ ([0, 1, 2] : List Nat) := by
  interval_cases n <;> simp

/-- C1: codec round trip. For every even index whose decoding succeeds
(no illegal flag), re-encoding the decoded board gives back exactly the
index. -/
theorem c1_round_trip (i : Nat) (hev : i % 2 = 0) (b : Board)
    (hdec : decodeBoard i = some b) : encodeVal b = i := by
  rw [decodeBoard] at hdec
  by_cases hlt : S ≤ i
  · rw [if_pos hlt] at hdec; exact absurd hdec (by simp)
  rw [if_neg hlt] at hdec
  have hiS : i < S := by omega
  have hlp : i >>> 29 < 39 := by
    rw [Nat.shiftRight_eq_div_pow]
    rw [S_val] at hiS
    exact Nat.div_lt_of_lt_mul (by omega)
  obtain ⟨hA12, hB12, hV0, hnE, hlen12, hf76, hf108, hlg⟩ :=
    lion_facts (i >>> 29) hlp
  cases hsq : decSquares (lionBoard (i >>> 29)) (i / 2) [0, 0, 0, 0] with
  | none => rw [hsq] at hdec; exact absurd hdec (by simp)
  | some r =>
    obtain ⟨g1, h2, cnt⟩ := r
    simp only [hsq] at hdec
    obtain ⟨e1, e2, e3, e4, e5, e6, e7⟩ :=
      decSquares_spec (lionBoard (i >>> 29)) (i / 2) [0, 0, 0, 0] g1 h2 cnt
        hV0 (by rfl) hsq
    rw [hnE] at e1 e2
    -- the three placement counts
    have hc1 : cnt.getD 1 0 = g1.count 67 := by simpa using e6 1 (by simp)
    have hc2 : cnt.getD 2 0 = g1.count 69 := by simpa using e6 2 (by simp)
    have hc3 : cnt.getD 3 0 = g1.count 71 := by simpa using e6 3 (by simp)
    have hb1 : cnt.getD 1 0 ≤ 2 := e7 1 (by simp) (by simp)
    have hb2 : cnt.getD 2 0 ≤ 2 := e7 2 (by simp) (by simp)
    have hb3 : cnt.getD 3 0 ≤ 2 := e7 3 (by simp) (by simp)
    have hcnt_eq : cnt = [0, cnt.getD 1 0, cnt.getD 2 0, cnt.getD 3 0] := by
      have h0 : cnt.getD 0 0 = 0 := by simpa using e5
      have := list_len4 cnt e4
      rw [h0] at this
      exact this
    -- cell values of the decoded board after placement
    have hV1 : ∀ c ∈ g1, c ∈ ([32, 67, 69, 71, 76, 108] : List Nat) := by
      intro c' hc'
      obtain ⟨c, hc, hR⟩ := forall₂_mem_right e3 c' hc'
      rcases hV0 c hc with rfl | rfl | rfl
      · have hmem := hR.2 rfl
        fin_cases hmem <;> simp
      · rw [hR.1 (by norm_num)]; simp
      · rw [hR.1 (by norm_num)]; simp
    -- abbreviations for the phases
    set hand := fillHand 6 3 cnt with hhand
    set ob := decOwn g1 h2 with hob
    set oh := decOwn hand ob.2 with hoh
    set pb := decPromo ob.1 oh.2 with hpb
    -- fill facts
    obtain ⟨hFv, hFc, hFo, hFs, hFfix⟩ :=
      fill_facts (cnt.getD 1 0) (mem012 _ hb1) (cnt.getD 2 0) (mem012 _ hb2)
        (cnt.getD 3 0) (mem012 _ hb3)
    rw [← hcnt_eq] at hFv hFc hFo hFs hFfix
    have hVH : ∀ c ∈ hand, c ∈ ([32, 67, 69, 71, 76, 108] : List Nat) := by
      intro c hc
      have := hFv c hc
      fin_cases this <;> simp
    -- ownership phase on the board
    obtain ⟨o1, o2, o3⟩ := decOwn_spec g1 h2 hV1
    rw [← hob] at o1 o2 o3
    -- ownership phase on the hand
    obtain ⟨oh1, oh2, oh3⟩ := decOwn_spec hand ob.2 hVH
    rw [← hoh] at oh1 oh2 oh3
    -- board values after ownership
    have hV2 : ∀ c ∈ ob.1, c ∈ ([32, 67, 69, 71, 76, 99, 101, 103, 108] : List Nat) := by
      intro c' hc'
      obtain ⟨c, hc, hR⟩ := forall₂_mem_right o3 c' hc'
      have hcv := hV1 c hc
      rcases hR with rfl | ⟨he, rfl⟩
      · fin_cases hcv <;> simp
      · fin_cases hcv <;>
          first
          | (exact absurd he (by decide))
          | simp
    have hVH2 : ∀ c ∈ oh.1, c ∈ ([32, 67, 69, 71, 99, 101, 103] : List Nat) := by
      intro c' hc'
      obtain ⟨c, hc, hR⟩ := forall₂_mem_right oh3 c' hc'
      have hcv := hFv c hc
      rcases hR with rfl | ⟨he, rfl⟩
      · fin_cases hcv <;> simp
      · fin_cases hcv <;>
          first
          | (exact absurd he (by decide))
          | simp
    -- promotion phase on the board
    have hP4 : ∀ c ∈ ob.1, ANIMAL c ≠ 4 := by
      intro c hc
      have := hV2 c hc
      fin_cases this <;> decide
    have hPp : ∀ c ∈ ob.1, ANIMAL c = 3 → ANIMAL (c + 1) = 4 := by
      intro c hc
      have := hV2 c hc
      fin_cases this <;> decide
    obtain ⟨p1, p2, p3⟩ := decPromo_spec ob.1 oh.2 hP4 hPp
    rw [← hpb] at p1 p2 p3
    -- promotion phase on the hand
    cases hph : decPromoHand oh.1 pb.2 with
    | none => rw [hph] at hdec; exact absurd hdec (by simp)
    | some ph =>
      simp only [hph] at hdec
      obtain ⟨q1, q2, q3⟩ := decPromoHand_spec oh.1 pb.2 ph.1 ph.2 (by rw [hph])
      have hev' : (i % 2 == 0) = true := by simp [hev]
      rw [hev'] at hdec
      simp only [if_true, Option.some.injEq] at hdec
      -- chick counts
      have hAeqB : List.Forall₂ (fun c c' => ANIMAL c' = ANIMAL c) g1 ob.1 := by
        refine forall₂_imp_of_mem o3 ?_
        intro a ha bb hR
        have hcv := hV1 a ha
        rcases hR with rfl | ⟨he, rfl⟩
        · rfl
        · fin_cases hcv <;> first | (exact absurd he (by decide)) | decide
      have hAeqH : List.Forall₂ (fun c c' => ANIMAL c' = ANIMAL c) hand oh.1 := by
        refine forall₂_imp_of_mem oh3 ?_
        intro a ha bb hR
        have hcv := hFv a ha
        rcases hR with rfl | ⟨he, rfl⟩
        · rfl
        · fin_cases hcv <;> first | (exact absurd he (by decide)) | decide
      have hnCB : nChick ob.1 = cnt.getD 1 0 := by
        have h1 : nChick g1 = nChick ob.1 :=
          forall₂_countP _ hAeqB (fun a bb hR => by
            show (ANIMAL a == 3) = (ANIMAL bb == 3)
            rw [hR])
        rw [← h1, nChick_V1 g1 hV1, hc1]
      have hnCH : nChick oh.1 = 2 - cnt.getD 1 0 := by
        have h1 : nChick hand = nChick oh.1 :=
          forall₂_countP _ hAeqH (fun a bb hR => by
            show (ANIMAL a == 3) = (ANIMAL bb == 3)
            rw [hR])
        rw [← h1, hFc]
      -- ownership counts
      have hnOB : nOwn g1 = cnt.getD 1 0 + cnt.getD 2 0 + cnt.getD 3 0 := by
        rw [nOwn_V1 g1 hV1, hc1, hc2, hc3]
      have hnOH : nOwn hand = 6 - (cnt.getD 1 0 + cnt.getD 2 0 + cnt.getD 3 0) := hFo
      -- numeric chain
      have hk6 : cnt.getD 1 0 + cnt.getD 2 0 + cnt.getD 3 0 ≤ 6 := by omega
      have hohval : oh.2 = i / 2 / 2 ^ 26 := by
        rw [oh1, o1, e1, hnOB, hnOH]
        simp only [Nat.div_div_eq_div_mul]
        have hdiv : 2 * 4 ^ 10 * 2 ^ (cnt.getD 1 0 + cnt.getD 2 0 + cnt.getD 3 0) *
            2 ^ (6 - (cnt.getD 1 0 + cnt.getD 2 0 + cnt.getD 3 0)) = 2 * 2 ^ 26 := by
          have h1 : (4 : Nat) ^ 10 = 2 ^ 20 := by norm_num
          have hke : 20 + (cnt.getD 1 0 + cnt.getD 2 0 + cnt.getD 3 0) +
              (6 - (cnt.getD 1 0 + cnt.getD 2 0 + cnt.getD 3 0)) = 26 := by omega
          rw [h1, Nat.mul_assoc 2, Nat.mul_assoc 2, ← pow_add, ← pow_add, hke]
        rw [hdiv]
      have hlpval : (i >>> 29) = oh.2 / 4 := by
        rw [hohval, Nat.shiftRight_eq_div_pow]
        simp only [Nat.div_div_eq_div_mul]
        congr 1
      -- substitute the decoded board
      subst hdec
      rw [encodeVal, encodeRun]
      simp only [Bool.false_eq_true, if_false, canonGrid, if_true]
      -- lengths
      have hlenG1 : g1.length = 12 := by
        have := e3.length_eq
        rw [hlen12] at this
        exact this.symm
      have hlenOB : ob.1.length = 12 := by
        have := o3.length_eq
        rw [hlenG1] at this
        exact this.symm
      have hlenPB : pb.1.length = 12 := by
        have := p3.length_eq
        rw [hlenOB] at this
        exact this.symm
      -- find the lions
      have hiffB : ∀ v ∈ ([76, 108] : List Nat),
          List.Forall₂ (fun c c' => c = v ↔ c' = v) (lionBoard (i >>> 29)) pb.1 := by
        intro v hv
        have s1 : List.Forall₂ (fun c c' => c = v ↔ c' = v) (lionBoard (i >>> 29)) g1 := by
          refine forall₂_imp_of_mem e3 ?_
          intro a ha bb hR
          rcases hV0 a ha with rfl | rfl | rfl
          · have hmem := hR.2 rfl
            fin_cases hv <;> fin_cases hmem <;> decide
          · rw [hR.1 (by norm_num)]
          · rw [hR.1 (by norm_num)]
        have s2 : List.Forall₂ (fun c c' => c = v ↔ c' = v) g1 ob.1 := by
          refine forall₂_imp_of_mem o3 ?_
          intro a ha bb hR
          have hcv := hV1 a ha
          rcases hR with rfl | ⟨he, rfl⟩
          · exact Iff.rfl
          · fin_cases hv <;> fin_cases hcv <;>
              first | (exact absurd he (by decide)) | decide
        have s3 : List.Forall₂ (fun c c' => c = v ↔ c' = v) ob.1 pb.1 := by
          refine forall₂_imp_of_mem p3 ?_
          intro a ha bb hR
          have hcv := hV2 a ha
          rcases hR with rfl | ⟨he, rfl⟩
          · exact Iff.rfl
          · fin_cases hv <;> fin_cases hcv <;>
              first | (exact absurd he (by decide)) | decide
        exact forall₂_trans (fun a bb c hab hbc => hab.trans hbc) s1
          (forall₂_trans (fun a bb c hab hbc => hab.trans hbc) s2 s3)
      have htake : (pb.1 ++ ph.1).take 12 = pb.1 := by
        rw [← hlenPB]
        exact List.take_left pb.1 ph.1
      have hfd76 : findPiece (pb.1 ++ ph.1) 76 = lionA (i >>> 29) := by
        rw [findPiece, htake, ← forall₂_findIdx 76 (hiffB 76 (by simp)), hf76]
      have hfd108 : findPiece (pb.1 ++ ph.1) 108 = lionB (i >>> 29) := by
        rw [findPiece, htake, ← forall₂_findIdx 108 (hiffB 108 (by simp)), hf108]
      rw [hfd76, hfd108, hlg]
      have hguard : ¬ (12 ≤ lionA (i >>> 29) ∨ 12 ≤ lionB (i >>> 29) ∨ 39 < i >>> 29) := by
        push_neg
        exact ⟨by omega, by omega, by omega⟩
      rw [if_neg hguard]
      -- hand part of the final grid
      have hdrop : (pb.1 ++ ph.1).drop 12 = ph.1 := by
        rw [← hlenPB]
        exact List.drop_left pb.1 ph.1
      -- the sort leaves the decoded hand unchanged
      have hRH : List.Forall₂ (fun a a' => ANIMAL a' = ANIMAL a ∧ (a = 32 → a' = 32))
          hand oh.1 := by
        refine forall₂_imp_of_mem oh3 ?_
        intro a ha bb hR
        have hcv := hFv a ha
        rcases hR with rfl | ⟨he, rfl⟩
        · exact ⟨rfl, fun h => h⟩
        · fin_cases hcv <;> first | (exact absurd he (by decide)) | (exact ⟨by decide, by decide⟩)
      have hfixoh : handFixed oh.1 := by
        refine pairwise_transport hRH hFfix ?_
        intro a a' bb bb' hRa hRb hP hre
        have hre' : reorder a bb = true := by
          rw [← reorder_congr hRa.1 hRb.1]
          exact hre
        obtain ⟨ha32, hb32⟩ := hP hre'
        exact ⟨hRa.2 ha32, hRb.2 hb32⟩
      have hsort : sortHand ph.1 = ph.1 := by
        rw [q1]
        exact sortHand_fixed _ hfixoh
      rw [hdrop, htake, hsort]
      -- the promotion-bit pass
      have hHnoHen : ∀ c ∈ ph.1, ANIMAL c ≠ 4 := by
        rw [q1]
        intro c hc
        have := hVH2 c hc
        fin_cases this <;> decide
      have hnCHoh : nChick ph.1 = 2 - cnt.getD 1 0 := by
        rw [q1]; exact hnCH
      have hePr : encPromo (pb.1 ++ ph.1) (i >>> 29) = oh.2 := by
        rw [encPromo_append, encPromo_no_hen ph.1 hHnoHen, hnCHoh, p2, hnCB]
        have hm4 : oh.2 % 2 ^ (cnt.getD 1 0) = oh.2 % 4 := by
          have hsplit : oh.2 % 4 =
              oh.2 % 2 ^ (cnt.getD 1 0) +
                2 ^ (cnt.getD 1 0) * (oh.2 / 2 ^ (cnt.getD 1 0) % 2 ^ (2 - cnt.getD 1 0)) := by
            have h4 : (4 : Nat) = 2 ^ (cnt.getD 1 0) * 2 ^ (2 - cnt.getD 1 0) := by
              have hce : cnt.getD 1 0 + (2 - cnt.getD 1 0) = 2 := by omega
              rw [← pow_add, hce]
              norm_num
            rw [h4, Nat.mod_mul]
          have hz : oh.2 / 2 ^ (cnt.getD 1 0) % 2 ^ (2 - cnt.getD 1 0) = 0 := by
            have := q3
            rw [p1, hnCB] at this
            rw [hnCH] at this
            exact this
          rw [hsplit, hz]
          ring
        have hpow : (i >>> 29) * 2 ^ (2 - cnt.getD 1 0) * 2 ^ (cnt.getD 1 0) =
            (i >>> 29) * 4 := by
          have hce : 2 - cnt.getD 1 0 + cnt.getD 1 0 = 2 := by omega
          rw [Nat.mul_assoc, ← pow_add, hce]
          norm_num
        rw [hm4, hpow, hlpval, Nat.div_add_mod']
      rw [hePr]
      -- the ownership-bit pass
      have hOwnCongr : encOwn pb.1 (encOwn ph.1 oh.2) = encOwn ob.1 (encOwn ph.1 oh.2) := by
        refine encOwn_congr ?_ _
        refine forall₂_imp_of_mem p3 ?_
        intro a ha bb hR
        have hcv := hV2 a ha
        rcases hR with rfl | ⟨he, rfl⟩
        · exact ⟨rfl, Iff.rfl⟩
        · fin_cases hcv <;>
            first | (exact absurd he (by decide)) | (exact ⟨by decide, by decide⟩)
      have heOw : encOwn (pb.1 ++ ph.1) oh.2 = h2 := by
        rw [encOwn_append, hOwnCongr]
        have hh : encOwn ph.1 oh.2 = ob.2 := by
          rw [q1, oh2 oh.2, oh1, Nat.div_add_mod']
        rw [hh, o2 ob.2, o1, Nat.div_add_mod']
      rw [heOw]
      -- the square-descriptor pass
      have hSqCongr : encSq pb.1 h2 = encSq g1 h2 := by
        refine encSq_congr ?_ _
        have sA : List.Forall₂ sqRel g1 ob.1 := by
          refine forall₂_imp_of_mem hAeqB ?_
          intro a _ bb hR
          exact ⟨by rw [hR], by rw [hR], by rw [hR]⟩
        have sB : List.Forall₂ sqRel ob.1 pb.1 := by
          refine forall₂_imp_of_mem p3 ?_
          intro a ha bb hR
          have hcv := hV2 a ha
          rcases hR with rfl | ⟨he, rfl⟩
          · exact ⟨Iff.rfl, Iff.rfl, rfl⟩
          · fin_cases hcv <;>
              first | (exact absurd he (by decide)) | (exact ⟨by decide, by decide, by decide⟩)
        exact forall₂_trans (fun a bb c hab hbc =>
          ⟨hbc.1.trans hab.1, hbc.2.1.trans hab.2.1, hbc.2.2.trans hab.2.2⟩) sA sB
      have heSq : encSq pb.1 h2 = i / 2 := by
        rw [hSqCongr, e2 h2, e1, Nat.div_add_mod']
      rw [htake, heSq]
      -- conclude
      have : 2 * (i / 2) + 0 = i := by omega
      simpa using this

/-- C1 witness at index 0: the decode succeeds and re-encoding gives 0. -/
theorem c1_round_trip_witness :
    (0 : Nat) % 2 = 0 ∧
    decodeBoard 0 = some ⟨[76, 32, 32, 32, 32, 108, 32, 32, 32, 32, 32, 32,
      71, 71, 69, 69, 67, 67], true, false, 0, 0⟩ ∧
    encodeVal ⟨[76, 32, 32, 32, 32, 108, 32, 32, 32, 32, 32, 32,
      71, 71, 69, 69, 67, 67], true, false, 0, 0⟩ = 0 :=
  ⟨by decide, by decide,
   c1_round_trip 0 (by decide) _ (by decide)⟩

/-- C3 (amended): the table size constant of the program is `39 · 2^29`
bytes (about 19.5 GiB), not `39 · 2^34`. -/
theorem c3_table_size : S = 39 * 2 ^ 29 ∧ S = 20937965568 := by decide

/-- C3 counterexample: the constant `S` of the program is not `39 · 2^34`. -/
theorem c3_not_pow34 : S ≠ 39 * 2 ^ 34 := by decide

/-- C2, evaluation at the failing input: on the board with the sente
giraffe on square 1 capturing the gote hen on square 2, move application
puts a piece of animal tag `HEN` — not `CHICK` — into the first hand
slot; the move is among the generated moves of the position. -/
theorem c2_captured_hen_stays_hen :
    (1, 2) ∈ childMoves [76, 71, 100, 32, 32, 32, 32, 32, 32, 32, 32, 108,
      32, 32, 32, 32, 32, 32] ∧
    (moveApply [76, 71, 100, 32, 32, 32, 32, 32, 32, 32, 32, 108,
      32, 32, 32, 32, 32, 32] true 1 2).grid.getD 12 0 = 100 ∧
    ANIMAL 100 = HEN ∧ HEN ≠ CHICK := by decide

/-! ### Bitwise helpers for the table proofs -/

theorem land_mod_two_pow (x m k : Nat) (hm : m < 2 ^ k) :
    x &&& m = (x % 2 ^ k) &&& m := by
  refine Nat.eq_of_testBit_eq (fun i => ?_)
  rw [Nat.testBit_and, Nat.testBit_and, Nat.testBit_mod_two_pow]
  by_cases hi : i < k
  · simp [hi]
  · have hmf : m.testBit i = false :=
      Nat.testBit_lt_two_pow
        (lt_of_lt_of_le hm (Nat.pow_le_pow_right (by norm_num) (by omega)))
    simp [hi, hmf]

theorem land_255_small (x : Nat) (hx : x < 256) : x &&& 255 = x := by
  rw [Nat.and_pow_two_sub_one_eq_mod x 8]
  norm_num
  omega

theorem xor_two_mul_one (m : Nat) : 2 * m ^^^ 1 = 2 * m + 1 := by
  refine Nat.eq_of_testBit_eq (fun i => ?_)
  rw [Nat.testBit_xor]
  cases i with
  | zero =>
    rw [Nat.testBit_zero, Nat.testBit_zero, Nat.testBit_zero]
    simp [Nat.mul_add_mod, Nat.add_comm]
  | succ i =>
    rw [Nat.testBit_succ, Nat.testBit_succ, Nat.testBit_succ]
    have h1 : (2 * m + 1) / 2 = m := by omega
    have h2 : (2 * m) / 2 = m := by omega
    have h3 : (1 : Nat) / 2 = 0 := by norm_num
    rw [h1, h2, h3]
    simp [Nat.zero_testBit]

/-- C10: index-bounds safety. An index at or beyond `S` is rejected by the
decoder outright; below `S` the lion-pair index `h >> 29` is below 39 and
the two `lionPosition` accesses are in bounds; `enter` leaves the table
untouched and `query` misses without writing whenever the index is not
below the table size. -/
theorem c10_bounds (hbig : Nat) (hge : S ≤ hbig) (hsm : Nat) (hlt : hsm < S)
    (t : HT) (h : Nat) (d : Nat) (r res : Int) (x : Nat) (hout : t.size ≤ h) :
    decodeBoard hbig = none ∧
    hsm >>> 29 < 39 ∧
    2 * (hsm >>> 29) + 1 < lionPosition.length ∧
    (enterHT t h d r).1.map x = t.map x ∧
    queryHT t h d res = (false, res, t) := by
  refine ⟨?_, ?_, ?_, ?_, ?_⟩
  · rw [decodeBoard, if_pos hge]
  · rw [Nat.shiftRight_eq_div_pow]
    rw [S_val] at hlt
    exact Nat.div_lt_of_lt_mul (by omega)
  · have h39 : hsm >>> 29 < 39 := by
      rw [Nat.shiftRight_eq_div_pow]
      rw [S_val] at hlt
      exact Nat.div_lt_of_lt_mul (by omega)
    have hlen : lionPosition.length = 78 := by decide
    omega
  · rw [enterHT]
    simp only [if_neg (by omega : ¬ h < t.size)]
  · rw [queryHT]
    simp only [if_neg (by omega : ¬ h < t.size)]

/-- C10 witness at concrete inputs. -/
theorem c10_bounds_witness :
    S ≤ S ∧ (5 : Nat) < S ∧ (⟨4, fun _ => 7⟩ : HT).size ≤ 6 ∧
    (decodeBoard S = none ∧
     (5 : Nat) >>> 29 < 39 ∧
     2 * ((5 : Nat) >>> 29) + 1 < lionPosition.length ∧
     (enterHT ⟨4, fun _ => 7⟩ 6 3 1).1.map 0 = (⟨4, fun _ => 7⟩ : HT).map 0 ∧
     queryHT ⟨4, fun _ => 7⟩ 6 3 0 = (false, 0, ⟨4, fun _ => 7⟩)) :=
  ⟨by decide, by decide, by decide,
   c10_bounds S (le_refl S) 5 (by decide) ⟨4, fun _ => 7⟩ 6 3 1 0 0 (by decide)⟩

/-- C9: encode-miss handling. When the canonical grid's lion pair is
absent from `lionGrid` (value 255), the encoder returns the sentinel
`~0 = 2^64 - 1`; the sentinel is at least the table size `S`, and
`enter` at any out-of-range index leaves every table byte unchanged. -/
theorem c9_encode_miss (b : Board) (l n : Nat)
    (hl : findPiece (canonGrid b) 76 = l) (hn : findPiece (canonGrid b) 108 = n)
    (habs : lionGridAt l n = 255)
    (t : HT) (h : Nat) (d : Nat) (r : Int) (x : Nat) (hge : t.size ≤ h) :
    encodeVal b = U64MAX ∧ S ≤ U64MAX ∧ (enterHT t h d r).1.map x = t.map x := by
  refine ⟨?_, by decide, ?_⟩
  · by_cases hi : b.illegal
    · rw [encodeVal, encodeRun, if_pos hi]
    · have hi' : b.illegal = false := by
        cases hval : b.illegal
        · rfl
        · exact absurd hval hi
      simp only [encodeVal, encodeRun, hi', Bool.false_eq_true, if_false,
        hl, hn, habs]
      rw [if_pos (Or.inr (Or.inr (by norm_num : (39 : Nat) < 255)))]
  · rw [enterHT]
    simp only [if_neg (by omega : ¬ h < t.size)]

/-- C9 witness: a board with adjacent lions (squares 0 and 1), a pair not
in the 39-entry table. -/
theorem c9_encode_miss_witness :
    findPiece (canonGrid ⟨[76, 108, 32, 32, 32, 32, 32, 32, 32, 32, 32, 32,
      32, 32, 32, 32, 32, 32], true, false, 0, 0⟩) 76 = 0 ∧
    findPiece (canonGrid ⟨[76, 108, 32, 32, 32, 32, 32, 32, 32, 32, 32, 32,
      32, 32, 32, 32, 32, 32], true, false, 0, 0⟩) 108 = 1 ∧
    lionGridAt 0 1 = 255 ∧
    (encodeVal ⟨[76, 108, 32, 32, 32, 32, 32, 32, 32, 32, 32, 32,
      32, 32, 32, 32, 32, 32], true, false, 0, 0⟩ = U64MAX ∧
     S ≤ U64MAX ∧
     (enterHT ⟨1, fun _ => 0⟩ (2 ^ 64 - 1) 4 1).1.map 0 = (⟨1, fun _ => 0⟩ : HT).map 0) :=
  ⟨by decide, by decide, by decide,
   c9_encode_miss _ 0 1 (by decide) (by decide) (by decide)
     ⟨1, fun _ => 0⟩ (2 ^ 64 - 1) 4 1 0 (by decide)⟩

/-- C4 counterexample: entering a draw at odd depth 1 into a fresh entry
and querying back at the same depth 1 misses, though the claim promises a
hit for every `d' ≤ d`. -/
theorem c4_odd_depth_misses :
    (queryHT (enterHT ⟨1, fun _ => 0⟩ 0 1 0).1 0 1 0).1 = false ∧
    (1 : Nat) ≤ 1 := by decide

/-- C4 (amended): depth tagging on a fresh (all-zero) entry, for depths
that fit the 5-bit tag (`d ≤ 63`). A nonzero result is a hit at every
later depth with the stored verdict `±1`. A zero result is stored with
tag `⌊d/2⌋`, so a later query hits (with 0) exactly when
`d' ≤ 2·⌊d/2⌋`; in particular every `d' > d` misses, and for odd `d` the
query at `d' = d` itself already misses. -/
theorem c4_depth_tagging (t : HT) (h : Nat) (d d' : Nat) (r : Int)
    (hfresh : t.map h = 0) (hh : h < t.size) (hd : d ≤ 63) :
    (r ≠ 0 →
      (queryHT (enterHT t h d r).1 h d' 0).1 = true ∧
      (queryHT (enterHT t h d r).1 h d' 0).2.1 = (if 0 < r then 1 else -1)) ∧
    (r = 0 →
      ((queryHT (enterHT t h d r).1 h d' 0).1 = decide (d' ≤ 2 * (d / 2))) ∧
      (d' ≤ 2 * (d / 2) → (queryHT (enterHT t h d r).1 h d' 0).2.1 = 0) ∧
      (d < d' → (queryHT (enterHT t h d r).1 h d' 0).1 = false)) := by
  -- the byte written by enter
  have hbyte : ∀ (m : Nat), m ≤ 4 →
      ((t.map h ||| ((d / 2) * 8 + m)) &&& 255) = (d / 2) * 8 + m := by
    intro m hm4
    rw [hfresh, Nat.zero_or]
    exact land_255_small _ (by omega)
  have hdiv : (d / 2) * 8 + 2 < 256 := by omega
  -- generic query facts about a byte of the form (d/2)*8 + m
  have hand6 : ∀ (m : Nat), m ≤ 4 → ((d / 2) * 8 + m) &&& 6 = m &&& 6 := by
    intro m hm4
    rw [land_mod_two_pow _ 6 3 (by norm_num)]
    congr 1
    omega
  have hand2 : ∀ (m : Nat), m ≤ 4 → ((d / 2) * 8 + m) &&& 2 = m &&& 2 := by
    intro m hm4
    rw [land_mod_two_pow _ 2 3 (by norm_num)]
    congr 1
    omega
  have hshift : ∀ (m : Nat), m ≤ 4 → ((d / 2) * 8 + m) >>> 3 = d / 2 := by
    intro m hm4
    rw [Nat.shiftRight_eq_div_pow]
    omega
  constructor
  · intro hr
    by_cases hpos : 0 < r
    · -- WIN byte
      have hent : (enterHT t h d r).1.map h = (d / 2) * 8 + 2 := by
        rw [enterHT]
        simp only [if_pos hpos, if_pos hh]
        exact hbyte 2 (by norm_num)
      have hsize : (enterHT t h d r).1.size = t.size := by
        rw [enterHT]
        simp only [if_pos hpos, if_pos hh]
      rw [queryHT]
      simp only [if_pos (hsize ▸ hh), hent, hand6 2 (by norm_num),
        hand2 2 (by norm_num)]
      simp [hpos]
    · have hneg : r < 0 := by omega
      have hent : (enterHT t h d r).1.map h = (d / 2) * 8 + 4 := by
        rw [enterHT]
        simp only [if_neg (by omega : ¬ 0 < r), if_pos hneg, if_pos hh]
        exact hbyte 4 (by norm_num)
      have hsize : (enterHT t h d r).1.size = t.size := by
        rw [enterHT]
        simp only [if_neg (by omega : ¬ 0 < r), if_pos hneg, if_pos hh]
      rw [queryHT]
      simp only [if_pos (hsize ▸ hh), hent, hand6 4 (by norm_num),
        hand2 4 (by norm_num)]
      simp [hpos] <;> decide
  · intro hr
    subst hr
    have hent : (enterHT t h d 0).1.map h = (d / 2) * 8 := by
      have := hbyte 0 (by norm_num)
      rw [enterHT]
      simp only [lt_irrefl, if_neg (by omega : ¬ (0:Int) < 0),
        if_neg (by omega : ¬ (0:Int) < 0), if_pos hh]
      simpa using this
    have hsize : (enterHT t h d 0).1.size = t.size := by
      rw [enterHT]
      simp only [if_pos hh]
    have h6 : ((d / 2) * 8) &&& 6 = 0 := by
      have := hand6 0 (by norm_num)
      simpa using this
    have hsh : ((d / 2) * 8) >>> 3 = d / 2 := by
      have := hshift 0 (by norm_num)
      simpa using this
    refine ⟨?_, ?_, ?_⟩
    · rw [queryHT]
      simp only [if_pos (hsize ▸ hh), hent, h6, ne_eq, not_true_eq_false,
        lt_irrefl, hsh]
      by_cases hle : d' ≤ (d / 2) * 2
      · rw [if_pos hle]
        simp [show d' ≤ 2 * (d / 2) by omega]
      · rw [if_neg hle]
        simp [show ¬ (d' ≤ 2 * (d / 2)) by omega]
    · intro hle
      rw [queryHT]
      simp only [if_pos (hsize ▸ hh), hent, h6, ne_eq, not_true_eq_false,
        lt_irrefl, hsh]
      rw [if_pos (by omega : d' ≤ d / 2 * 2)]
      simp
    · intro hlt
      rw [queryHT]
      simp only [if_pos (hsize ▸ hh), hent, h6, ne_eq, not_true_eq_false,
        lt_irrefl, hsh]
      rw [if_neg (by omega : ¬ d' ≤ d / 2 * 2)]
      simp

/-- C4 witness at concrete inputs: enter a win at depth 7, query at depth
9; and enter a draw at depth 4, query at depths 4 and 5. -/
theorem c4_depth_tagging_witness :
    ((⟨1, fun _ => 0⟩ : HT).map 0 = 0 ∧ (0 : Nat) < 1 ∧ (7 : Nat) ≤ 63) ∧
    ((queryHT (enterHT ⟨1, fun _ => 0⟩ 0 7 1).1 0 9 0).1 = true ∧
     (queryHT (enterHT ⟨1, fun _ => 0⟩ 0 7 1).1 0 9 0).2.1 = 1) ∧
    ((queryHT (enterHT ⟨1, fun _ => 0⟩ 0 4 0).1 0 4 0).1 = decide ((4:Nat) ≤ 2 * (4 / 2)) ∧
     (queryHT (enterHT ⟨1, fun _ => 0⟩ 0 4 0).1 0 5 0).1 = false) :=
  ⟨⟨rfl, by decide, by decide⟩,
   by
     have h1 := (c4_depth_tagging ⟨1, fun _ => 0⟩ 0 7 9 1 rfl (by decide)
       (by decide)).1 (by decide)
     simpa using h1,
   by
     have h2 := (c4_depth_tagging ⟨1, fun _ => 0⟩ 0 4 4 0 rfl (by decide)
       (by decide)).2 rfl
     have h3 := (c4_depth_tagging ⟨1, fun _ => 0⟩ 0 4 5 0 rfl (by decide)
       (by decide)).2 rfl
     exact ⟨h2.1, by rw [h3.1]; decide⟩⟩

/-! ## C6: orientation symmetry -/

theorem map_id_of_mem {l : List Nat} {f : Nat → Nat}
    (h : ∀ x ∈ l, f x = x) : l.map f = l := by
  induction l with
  | nil => rfl
  | cons a l ih =>
    simp only [List.map_cons]
    rw [h a (List.mem_cons_self _ _), ih (fun x hx => h x (List.mem_cons_of_mem _ hx))]

set_option maxRecDepth 4000 in
theorem toggleCell_invol : ∀ c < 256, toggleCell (toggleCell c) = c := by decide

/-- `Board::flip` is an involution on 18-cell byte grids. -/
theorem flipGrid_flipGrid (g : List Nat) (hlen : g.length = 18)
    (hbyte : ∀ c ∈ g, c < 256) : flipGrid (flipGrid g) = g := by
  have hAl : (((g.take 12).map toggleCell).reverse).length = 12 := by
    rw [List.length_reverse, List.length_map, List.length_take]
    omega
  have h1 : flipGrid g = ((g.take 12).map toggleCell).reverse ++ (g.drop 12).map toggleCell := by
    rw [flipGrid, List.map_append, List.map_reverse]
  have htake : (flipGrid g).take 12 = ((g.take 12).map toggleCell).reverse := by
    rw [h1, List.take_left' hAl]
  have hdrop : (flipGrid g).drop 12 = (g.drop 12).map toggleCell := by
    rw [h1, List.drop_left' hAl]
  rw [flipGrid, htake, hdrop, List.reverse_reverse, ← List.map_append, List.map_map]
  have hid : ∀ x ∈ g.take 12 ++ g.drop 12, (toggleCell ∘ toggleCell) x = x := by
    intro x hx
    rw [List.take_append_drop] at hx
    exact toggleCell_invol x (hbyte x hx)
  rw [map_id_of_mem hid, List.take_append_drop]

theorem flipGrid_length (g : List Nat) : (flipGrid g).length = g.length := by
  simp [flipGrid]
  omega

theorem flipGrid_take (g : List Nat) (h12 : 12 ≤ g.length) :
    (flipGrid g).take 12 = ((g.take 12).map toggleCell).reverse := by
  have hAl : (((g.take 12).map toggleCell).reverse).length = 12 := by
    rw [List.length_reverse, List.length_map, List.length_take]
    omega
  rw [flipGrid, List.map_append, List.map_reverse, List.take_left' hAl]

theorem flipGrid_drop (g : List Nat) (h12 : 12 ≤ g.length) :
    (flipGrid g).drop 12 = (g.drop 12).map toggleCell := by
  have hAl : (((g.take 12).map toggleCell).reverse).length = 12 := by
    rw [List.length_reverse, List.length_map, List.length_take]
    omega
  rw [flipGrid, List.map_append, List.map_reverse, List.drop_left' hAl]

/-- The flipped position: sides swapped, the 12 board squares reversed,
every piece colour-toggled (`Board::flip` together with swapping the
side to move). -/
def flipBoard (b : Board) : Board :=
  { b with grid := flipGrid b.grid, sente := !b.sente }

/-- C6: for every legal position with Sente to move (well-formed 18-cell
byte grid, illegal flag clear, lion-pair guard passing), the encoded
index is even, and encoding the flipped position (sides swapped, the 12
board squares reversed, every piece colour-toggled) yields exactly the
encoded index XOR 1. -/
theorem c6_orientation_symmetry (b : Board) (hs : b.sente = true)
    (hi : b.illegal = false) (hlen : b.grid.length = 18)
    (hbyte : ∀ c ∈ b.grid, c < 256)
    (hguard : ¬ (12 ≤ findPiece b.grid 76 ∨ 12 ≤ findPiece b.grid 108 ∨
      39 < lionGridAt (findPiece b.grid 76) (findPiece b.grid 108))) :
    encodeVal b % 2 = 0 ∧ encodeVal (flipBoard b) = encodeVal b ^^^ 1 := by
  have hcanon : canonGrid b = b.grid := by simp [canonGrid, hs]
  have hff : flipGrid (flipGrid b.grid) = b.grid := flipGrid_flipGrid b.grid hlen hbyte
  have hcanonf : canonGrid (flipBoard b) = b.grid := by
    simp [canonGrid, flipBoard, hs, hff]
  have hif : (flipBoard b).illegal = false := hi
  have heven : encodeVal b % 2 = 0 := by
    simp only [encodeVal, encodeRun, hi, Bool.false_eq_true, if_false, hcanon]
    rw [if_neg hguard]
    simp [hs]
  refine ⟨heven, ?_⟩
  have hstep : encodeVal (flipBoard b) = encodeVal b + 1 := by
    simp only [encodeVal, encodeRun, hi, hif, Bool.false_eq_true, if_false,
      hcanon, hcanonf]
    rw [if_neg hguard, if_neg hguard]
    simp [hs, flipBoard]
  have h2 : encodeVal b = 2 * (encodeVal b / 2) := by omega
  rw [hstep, h2, xor_two_mul_one]

/-- Witness for C6 at the decoded board of index 0. -/
theorem c6_orientation_symmetry_witness :
    encodeVal ⟨[76,32,32,32,32,108,32,32,32,32,32,32,71,71,69,69,67,67],
      true, false, 0, 0⟩ % 2 = 0 ∧
    encodeVal (flipBoard ⟨[76,32,32,32,32,108,32,32,32,32,32,32,71,71,69,69,67,67],
      true, false, 0, 0⟩) =
    encodeVal ⟨[76,32,32,32,32,108,32,32,32,32,32,32,71,71,69,69,67,67],
      true, false, 0, 0⟩ ^^^ 1 :=
  c6_orientation_symmetry _ rfl rfl (by decide) (by decide) (by decide)


/-! ## C5: hand order -/

theorem decPromo_length : ∀ (g : List Nat) (h : Nat),
    ((decPromo g h).1).length = g.length := by
  intro g
  induction g with
  | nil => intro h; rfl
  | cons c g ih =>
    intro h
    by_cases hc : ANIMAL c = 3 <;> simp [decPromo, hc, ih]

theorem forall₂_map_self (f : Nat → Nat) :
    ∀ l : List Nat, List.Forall₂ (fun a b => b = f a) l (l.map f) := by
  intro l
  induction l with
  | nil => exact List.Forall₂.nil
  | cons a l ih => exact List.Forall₂.cons rfl ih

/-- C5 counterexample: the decoder leaves the hand in DESCENDING
animal-tag order (index 0 decodes to hand `GGEECC`), not the claimed
empty-first ascending order; and the encoding is NOT invariant under
permutations of equal-animal hand pieces: indices `2^26` and `2^25`
decode to positions whose hands are permutations of each other (the two
chicks swapped between the sides' slots), yet they re-encode to the two
distinct original indices. -/
theorem c5_hand_order_counterexample :
    ((decodeBoard 0).map (fun b => b.grid.drop 12) = some [71, 71, 69, 69, 67, 67] ∧
     ¬ List.Pairwise (fun p q => ANIMAL p ≤ ANIMAL q) [71, 71, 69, 69, 67, 67]) ∧
    ((decodeBoard (2 ^ 26)).map (fun b => b.grid.drop 12) = some [71, 71, 69, 69, 67, 99] ∧
     (decodeBoard (2 ^ 25)).map (fun b => b.grid.drop 12) = some [71, 71, 69, 69, 99, 67] ∧
     List.Perm [71, 71, 69, 69, 67, 99] [71, 71, 69, 69, 99, 67] ∧
     (decodeBoard (2 ^ 26)).map encodeVal = some (2 ^ 26) ∧
     (decodeBoard (2 ^ 25)).map encodeVal = some (2 ^ 25)) := by
  decide

/-- C5 (amended): every decoded position carries its hand in
non-increasing animal-tag order — pieces in descending tag order with
empty slots last — and the encoder's hand sort always produces a hand in
that same non-increasing order. -/
theorem c5_hand_descending (h : Nat) (b : Board)
    (hdec : decodeBoard h = some b) :
    List.Pairwise (fun p q => ANIMAL q ≤ ANIMAL p) (b.grid.drop 12) ∧
    ∀ l : List Nat, List.Pairwise (fun p q => ANIMAL q ≤ ANIMAL p) (sortHand l) := by
  refine ⟨?_, fun l => sortHand_sorted l⟩
  rw [decodeBoard] at hdec
  by_cases hlt : S ≤ h
  · rw [if_pos hlt] at hdec; exact absurd hdec (by simp)
  rw [if_neg hlt] at hdec
  have hiS : h < S := by omega
  have hlp : h >>> 29 < 39 := by
    rw [Nat.shiftRight_eq_div_pow]
    rw [S_val] at hiS
    exact Nat.div_lt_of_lt_mul (by omega)
  obtain ⟨hA12, hB12, hV0, hnE, hlen12, hf76, hf108, hlg⟩ := lion_facts (h >>> 29) hlp
  cases hsq : decSquares (lionBoard (h >>> 29)) (h / 2) [0, 0, 0, 0] with
  | none => rw [hsq] at hdec; exact absurd hdec (by simp)
  | some r =>
    obtain ⟨g1, h2, cnt⟩ := r
    simp only [hsq] at hdec
    obtain ⟨e1, e2, e3, e4, e5, e6, e7⟩ :=
      decSquares_spec (lionBoard (h >>> 29)) (h / 2) [0, 0, 0, 0] g1 h2 cnt
        hV0 (by rfl) hsq
    have hb1 : cnt.getD 1 0 ≤ 2 := e7 1 (by simp) (by simp)
    have hb2 : cnt.getD 2 0 ≤ 2 := e7 2 (by simp) (by simp)
    have hb3 : cnt.getD 3 0 ≤ 2 := e7 3 (by simp) (by simp)
    have hcnt_eq : cnt = [0, cnt.getD 1 0, cnt.getD 2 0, cnt.getD 3 0] := by
      have h0 : cnt.getD 0 0 = 0 := by simpa using e5
      have := list_len4 cnt e4
      rw [h0] at this
      exact this
    have hV1 : ∀ c ∈ g1, c ∈ ([32, 67, 69, 71, 76, 108] : List Nat) := by
      intro c' hc'
      obtain ⟨c, hc, hR⟩ := forall₂_mem_right e3 c' hc'
      rcases hV0 c hc with rfl | rfl | rfl
      · have hmem := hR.2 rfl
        fin_cases hmem <;> simp
      · rw [hR.1 (by norm_num)]; simp
      · rw [hR.1 (by norm_num)]; simp
    set hand := fillHand 6 3 cnt with hhand
    set ob := decOwn g1 h2 with hob
    set oh := decOwn hand ob.2 with hoh
    set pb := decPromo ob.1 oh.2 with hpb
    obtain ⟨hFv, hFc, hFo, hFs, hFfix⟩ :=
      fill_facts (cnt.getD 1 0) (mem012 _ hb1) (cnt.getD 2 0) (mem012 _ hb2)
        (cnt.getD 3 0) (mem012 _ hb3)
    rw [← hcnt_eq] at hFv hFs
    have hVH : ∀ c ∈ hand, c ∈ ([32, 67, 69, 71, 76, 108] : List Nat) := by
      intro c hc
      have := hFv c hc
      fin_cases this <;> simp
    obtain ⟨o1, o2, o3⟩ := decOwn_spec g1 h2 hV1
    rw [← hob] at o1 o2 o3
    obtain ⟨oh1, oh2, oh3⟩ := decOwn_spec hand ob.2 hVH
    rw [← hoh] at oh1 oh2 oh3
    have hany : List.Forall₂ (fun a bb => ANIMAL bb = ANIMAL a) hand oh.1 := by
      refine forall₂_imp_of_mem oh3 ?_
      intro a ha bb hR
      have hmem := hFv a ha
      rcases hR with rfl | ⟨_, rfl⟩
      · rfl
      · fin_cases hmem <;> decide
    have hPoh : List.Pairwise (fun p q => ANIMAL q ≤ ANIMAL p) oh.1 :=
      pairwise_transport hany hFs
        (fun a a' bb bb' ha hb hP => by rw [hb, ha]; exact hP)
    have hVH2 : ∀ c ∈ oh.1, c ∈ ([32, 67, 69, 71, 99, 101, 103] : List Nat) := by
      intro c' hc'
      obtain ⟨c, hc, hR⟩ := forall₂_mem_right oh3 c' hc'
      have hcv := hFv c hc
      rcases hR with rfl | ⟨_, rfl⟩
      · fin_cases hcv <;> simp
      · fin_cases hcv <;> decide
    cases hph : decPromoHand oh.1 pb.2 with
    | none => rw [hph] at hdec; exact absurd hdec (by simp)
    | some ph =>
      rw [hph] at hdec
      simp only [Option.some.injEq] at hdec
      subst hdec
      obtain ⟨hph1, hph2, hph3⟩ := decPromoHand_spec oh.1 pb.2 ph.1 ph.2 (by rw [hph])
      have hlg1 : g1.length = 12 := by rw [← e3.length_eq]; exact hlen12
      have hlob : ob.1.length = 12 := by rw [← o3.length_eq]; exact hlg1
      have hlpb : pb.1.length = 12 := by rw [hpb, decPromo_length]; exact hlob
      have hPph : List.Pairwise (fun p q => ANIMAL q ≤ ANIMAL p) ph.1 := by
        rw [hph1]; exact hPoh
      cases hq : (h % 2 == 0) with
      | true =>
        rw [if_pos rfl, List.drop_left' hlpb]
        exact hPph
      | false =>
        rw [if_neg Bool.false_ne_true]
        have hlen2 : 12 ≤ (pb.1 ++ ph.1).length := by
          rw [List.length_append, hlpb]; omega
        rw [flipGrid_drop _ hlen2, List.drop_left' hlpb]
        have hmap : List.Forall₂ (fun a bb => bb = toggleCell a ∧ ANIMAL bb = ANIMAL a)
            ph.1 (ph.1.map toggleCell) := by
          refine forall₂_imp_of_mem (forall₂_map_self toggleCell ph.1) ?_
          intro a ha bb hb
          subst hb
          refine ⟨rfl, ?_⟩
          have hmem : a ∈ oh.1 := by rw [← hph1]; exact ha
          have := hVH2 a hmem
          fin_cases this <;> decide
        exact pairwise_transport hmap hPph
          (fun a a' bb bb' ha hb hP => by rw [hb.2, ha.2]; exact hP)

/-- Witness for C5 at index 0: the decoded hand `GGEECC` is
non-increasing. -/
theorem c5_hand_descending_witness :
    List.Pairwise (fun p q => ANIMAL q ≤ ANIMAL p)
      ((⟨[76, 32, 32, 32, 32, 108, 32, 32, 32, 32, 32, 32, 71, 71, 69, 69, 67, 67],
        true, false, 0, 0⟩ : Board).grid.drop 12) ∧
    ∀ l : List Nat, List.Pairwise (fun p q => ANIMAL q ≤ ANIMAL p) (sortHand l) :=
  c5_hand_descending 0 _ (by decide)


/-! ## C7: the encoder as a frame effect -/

/-- C7 counterexample: encoding is NOT always transient. On a legal
position whose hand is not canonically sorted (a chick in the second
hand slot, first slot empty), `Board::operator()()` permanently moves
the chick into the first hand slot: slot 12 held the empty byte before
the call and holds `C` (67) after it, while the returned index is a
valid in-range hash (not the sentinel). -/
theorem c7_encode_mutates_hand :
    (encodeRun ⟨[76, 32, 32, 32, 32, 108, 32, 32, 32, 32, 32, 32,
        32, 67, 32, 32, 32, 32], true, false, 0, 0⟩).2.grid.getD 12 0 = 67 ∧
    ([76, 32, 32, 32, 32, 108, 32, 32, 32, 32, 32, 32,
        32, 67, 32, 32, 32, 32] : List Nat).getD 12 0 = 32 ∧
    (encodeRun ⟨[76, 32, 32, 32, 32, 108, 32, 32, 32, 32, 32, 32,
        32, 67, 32, 32, 32, 32], true, false, 0, 0⟩).1 < S := by
  decide

/-- C7 (amended): after `Board::operator()()` returns, the side-to-move
flag and the 12 board squares always hold exactly their prior values;
the whole position (including the 6 hand slots) is restored exactly when
the canonically-oriented hand is already a fixed point of the encoder's
hand sort. -/
theorem c7_encode_restores_frame (b : Board) (hlen : b.grid.length = 18)
    (hbyte : ∀ c ∈ b.grid, c < 256) :
    (encodeRun b).2.sente = b.sente ∧
    (encodeRun b).2.grid.take 12 = b.grid.take 12 ∧
    (handFixed ((canonGrid b).drop 12) → (encodeRun b).2 = b) := by
  obtain ⟨gb, sb, il, dp, rs⟩ := b
  have hlen' : gb.length = 18 := hlen
  have hbyte' : ∀ c ∈ gb, c < 256 := hbyte
  cases il with
  | true => simp [encodeRun]
  | false =>
    cases sb with
    | true =>
      have hcg : canonGrid ⟨gb, true, false, dp, rs⟩ = gb := by simp [canonGrid]
      by_cases hg : 12 ≤ findPiece gb 76 ∨ 12 ≤ findPiece gb 108 ∨
          39 < lionGridAt (findPiece gb 76) (findPiece gb 108)
      · have hpost : (encodeRun ⟨gb, true, false, dp, rs⟩).2 =
            ⟨gb, true, false, dp, rs⟩ := by
          simp [encodeRun, hcg, hg]
        rw [hpost]
        exact ⟨rfl, rfl, fun _ => rfl⟩
      · have hpost : (encodeRun ⟨gb, true, false, dp, rs⟩).2 =
            ⟨gb.take 12 ++ sortHand (gb.drop 12), true, false, dp, rs⟩ := by
          simp [encodeRun, hcg, hg]
        rw [hpost]
        have htl : (gb.take 12).length = 12 := by
          rw [List.length_take]; omega
        refine ⟨rfl, List.take_left' htl, ?_⟩
        intro hfix
        rw [hcg] at hfix
        rw [sortHand_fixed _ hfix, List.take_append_drop]
    | false =>
      have hcg : canonGrid ⟨gb, false, false, dp, rs⟩ = flipGrid gb := by
        simp [canonGrid]
      have hfl : flipGrid (flipGrid gb) = gb := flipGrid_flipGrid gb hlen' hbyte' 
      by_cases hg : 12 ≤ findPiece (flipGrid gb) 76 ∨
          12 ≤ findPiece (flipGrid gb) 108 ∨
          39 < lionGridAt (findPiece (flipGrid gb) 76) (findPiece (flipGrid gb) 108)
      · have hpost : (encodeRun ⟨gb, false, false, dp, rs⟩).2 =
            ⟨flipGrid (flipGrid gb), false, false, dp, rs⟩ := by
          simp [encodeRun, hcg, hg]
        rw [hpost, hfl]
        exact ⟨rfl, rfl, fun _ => rfl⟩
      · have hpost : (encodeRun ⟨gb, false, false, dp, rs⟩).2 =
            ⟨flipGrid ((flipGrid gb).take 12 ++ sortHand ((flipGrid gb).drop 12)),
              false, false, dp, rs⟩ := by
          simp [encodeRun, hcg, hg]
        rw [hpost]
        have h2len : ((flipGrid gb).take 12).length = 12 := by
          rw [List.length_take, flipGrid_length]; omega
        refine ⟨rfl, ?_, ?_⟩
        · have hlen2 : 12 ≤ ((flipGrid gb).take 12 ++
              sortHand ((flipGrid gb).drop 12)).length := by
            rw [List.length_append, h2len]; omega
          rw [flipGrid_take _ hlen2, List.take_left' h2len,
              flipGrid_take gb (by omega), List.map_reverse,
              List.reverse_reverse, List.map_map]
          exact map_id_of_mem
            (fun x hx => toggleCell_invol x (hbyte' x (List.take_subset 12 gb hx)))
        · intro hfix
          rw [hcg] at hfix
          rw [sortHand_fixed _ hfix, List.take_append_drop, hfl]

/-- Witness for C7 on a legal Sente position with a canonically sorted
hand. -/
theorem c7_encode_restores_frame_witness :
    (encodeRun ⟨[76, 32, 32, 32, 32, 108, 32, 32, 32, 32, 32, 32,
        67, 32, 32, 32, 32, 32], true, false, 0, 0⟩).2.sente = true ∧
    (encodeRun ⟨[76, 32, 32, 32, 32, 108, 32, 32, 32, 32, 32, 32,
        67, 32, 32, 32, 32, 32], true, false, 0, 0⟩).2.grid.take 12 =
      ([76, 32, 32, 32, 32, 108, 32, 32, 32, 32, 32, 32,
        67, 32, 32, 32, 32, 32] : List Nat).take 12 ∧
    (handFixed ((canonGrid ⟨[76, 32, 32, 32, 32, 108, 32, 32, 32, 32, 32, 32,
        67, 32, 32, 32, 32, 32], true, false, 0, 0⟩).drop 12) →
      (encodeRun ⟨[76, 32, 32, 32, 32, 108, 32, 32, 32, 32, 32, 32,
        67, 32, 32, 32, 32, 32], true, false, 0, 0⟩).2 =
      ⟨[76, 32, 32, 32, 32, 108, 32, 32, 32, 32, 32, 32,
        67, 32, 32, 32, 32, 32], true, false, 0, 0⟩) :=
  c7_encode_restores_frame _ (by decide) (by decide)


/-! ## C8: the values returned by the search -/

/-- The closure of the `±__LINE__` values the search can return. -/
def VS : List Int := [0, 1, -1, 414, -414, 441, -441, 646, -646]

theorem VS_neg : ∀ x ∈ VS, -x ∈ VS := by decide

theorem moveApply_result (g : List Nat) (s : Bool) (mf mt : Nat) :
    (moveApply g s mf mt).result ∈ ([0, -414, 441] : List Int) := by
  simp only [moveApply]
  split_ifs <;> simp

theorem queryHT_out (t : HT) (h d : Nat) :
    (queryHT t h d 0).2.1 ∈ ([(-1 : Int), 0, 1] : List Int) := by
  simp only [queryHT]
  split_ifs <;> simp

theorem searchLoop_mem (f : HT → Board → Nat → Option (Int × HT))
    (hf : ∀ t b d r t', b.result ∈ ([0, -414, 441] : List Int) →
      f t b d = some (r, t') → r ∈ VS) :
    ∀ (ms : List (Nat × Nat)) (g : List Nat) (s : Bool) (dep : Nat)
      (cur : Int) (t : HT) (r : Int) (t' : HT), cur ∈ VS →
      searchLoop f g s dep ms cur t = some (r, t') → r ∈ VS := by
  intro ms
  induction ms with
  | nil =>
    intro g s dep cur t r t' hcur heq
    simp only [searchLoop, Option.some.injEq, Prod.mk.injEq] at heq
    obtain ⟨rfl, rfl⟩ := heq
    exact hcur
  | cons m ms ih =>
    intro g s dep cur t r t' hcur heq
    rw [searchLoop] at heq
    by_cases hpos : 0 < cur
    · rw [if_pos hpos] at heq
      simp only [Option.some.injEq, Prod.mk.injEq] at heq
      obtain ⟨rfl, rfl⟩ := heq
      exact hcur
    · rw [if_neg hpos] at heq
      cases hrec : f t (moveApply g s m.1 m.2) dep with
      | none => rw [hrec] at heq; exact absurd heq (by simp)
      | some p =>
        rw [hrec] at heq
        obtain ⟨v, t2⟩ := p
        have hv : v ∈ VS := hf _ _ _ _ _ (moveApply_result g s m.1 m.2) hrec
        have hmax : max cur (-v) ∈ VS := by
          rcases max_choice cur (-v) with hmc | hmc
          · rw [hmc]; exact hcur
          · rw [hmc]; exact VS_neg v hv
        exact ih g s dep _ t2 r t' hmax heq

set_option maxRecDepth 100000 in
/-- C8 counterexample: a depth-1 search of the position reached after
Sente's giraffe captures the Gote lion returns −414 — the `-__LINE__`
sentinel of the lion-capture line — which lies outside {−1, 0, +1}. -/
theorem c8_search_value_counterexample :
    ((searchGo 1 ⟨1, fun _ => 0⟩
        (moveApply [76, 71, 108, 32, 32, 32, 32, 32, 32, 32, 32, 32,
          32, 32, 32, 32, 32, 32] true 1 2) 1).map (fun p => p.1) =
      some (-414)) ∧
    (-414 : Int) ∉ ([-1, 0, 1] : List Int) := by
  constructor
  · decide
  · decide

/-- C8 (amended): starting from any board whose `result` field is one of
the move-application values {0, −414, 441}, every value the search
returns — and hence every result the solver passes to
`Hashtable::enter` — lies in the nine-element set
{0, ±1, ±414, ±441, ±646} of `±__LINE__` sentinels and query verdicts,
not in {−1, 0, +1}. -/
theorem c8_search_values (fuel : Nat) (t : HT) (b : Board) (depth : Nat)
    (r : Int) (t' : HT) (hres : b.result ∈ ([0, -414, 441] : List Int))
    (heq : searchGo fuel t b depth = some (r, t')) : r ∈ VS := by
  induction fuel generalizing t b depth r t' with
  | zero => simp [searchGo] at heq
  | succ fuel ih =>
    simp only [searchGo] at heq
    by_cases hb0 : b.result = 0
    · rw [hb0] at heq
      rw [if_neg (by decide : ¬((0 : Int) ≠ 0))] at heq
      by_cases hqh : (queryHT t (encodeRun b).1 (depth + b.deeper) 0).1 = true
      · rw [if_pos hqh] at heq
        simp only [Option.some.injEq, Prod.mk.injEq] at heq
        obtain ⟨h1, h2⟩ := heq
        have hout := queryHT_out t (encodeRun b).1 (depth + b.deeper)
        rw [h1] at hout
        have : r = -1 ∨ r = 0 ∨ r = 1 := by simpa using hout
        rcases this with h | h | h <;> rw [h] <;> decide
      · rw [if_neg hqh] at heq
        by_cases hdz : depth + b.deeper = 0
        · rw [if_pos hdz] at heq
          simp only [Option.some.injEq, Prod.mk.injEq] at heq
          obtain ⟨h1, h2⟩ := heq
          rw [← h1]
          decide
        · rw [if_neg hdz] at heq
          cases hloop : searchLoop (fun t'' b'' d'' => searchGo fuel t'' b'' d'')
              (encodeRun b).2.grid (encodeRun b).2.sente (depth + b.deeper - 1)
              (childMoves (encodeRun b).2.grid) (-646)
              (queryHT t (encodeRun b).1 (depth + b.deeper) 0).2.2 with
          | none => rw [hloop] at heq; exact absurd heq (by simp)
          | some p =>
            rw [hloop] at heq
            obtain ⟨res, t2⟩ := p
            simp only [Option.some.injEq, Prod.mk.injEq] at heq
            obtain ⟨h1, h2⟩ := heq
            rw [← h1]
            refine searchLoop_mem _ ?_ _ _ _ _ _ _ _ _ (by decide) hloop
            intro t3 b3 d3 r3 t4 hb3 he3
            exact ih t3 b3 d3 r3 t4 hb3 he3
    · rw [if_pos hb0] at heq
      simp only [Option.some.injEq, Prod.mk.injEq] at heq
      obtain ⟨h1, h2⟩ := heq
      rw [← h1]
      have hmem : b.result = 0 ∨ b.result = -414 ∨ b.result = 441 := by
        simpa using hres
      rcases hmem with h | h | h <;> rw [h] <;> decide

set_option maxRecDepth 100000 in
/-- Witness for C8: a depth-0 search of the initial position returns 0,
which is in the value set. -/
theorem c8_search_values_witness :
    searchGo 1 ⟨1, fun _ => 0⟩
      ⟨[69, 76, 71, 32, 67, 32, 32, 99, 32, 103, 108, 101,
        32, 32, 32, 32, 32, 32], true, false, 0, 0⟩ 0 =
      some (0, ⟨1, fun _ => 0⟩) ∧ (0 : Int) ∈ VS :=
  ⟨rfl, c8_search_values 1 ⟨1, fun _ => 0⟩
    ⟨[69, 76, 71, 32, 67, 32, 32, 99, 32, 103, 108, 101,
      32, 32, 32, 32, 32, 32], true, false, 0, 0⟩ 0 0 ⟨1, fun _ => 0⟩
    (by decide) rfl⟩


end Dobutsu
